import Mathlib

/-!
Verification development for the Compliance-Helper ingestion and hybrid
retrieval pipeline (`utils/ingest.py`, `utils/retriever.py`).

Text is modelled as `List Char` (Python's `str` is a sequence of unicode
code points, and Python `len`/indexing count code points, matching
`List.length`).  Python `float` scores are modelled as exact rationals `ℚ`
(none of the verified properties depends on rounding), and the L2
normalisation performed by `faiss.normalize_L2` is modelled over `ℝ`.
Fallible operations (`raise`) are modelled with `Except`.
-/

/-- Text: a Python string as a list of unicode code points. -/
abbrev Str := List Char

/-- Python `str.isspace`-style whitespace test used by `str.strip`, `str.split`
and the regex class `\s` (ASCII fragment). -/
def isWs (c : Char) : Bool := c.isWhitespace

/-- Python `str.strip()`: remove leading and trailing whitespace. -/
def trimChars (l : Str) : Str :=
  ((l.dropWhile isWs).reverse.dropWhile isWs).reverse

/-- Helper for `collapseWs`: the flag records whether the previous character
was whitespace (i.e. we are inside a run already represented by a space). -/
def collapseWsAux : Bool → Str → Str
  | _, [] => []
  | inRun, c :: r =>
    if isWs c then
      if inRun then collapseWsAux true r else ' ' :: collapseWsAux true r
    else c :: collapseWsAux false r

/-- Python `re.sub(r'\s+', ' ', text)`: every maximal whitespace run is
replaced by a single space. -/
def collapseWs (l : Str) : Str := collapseWsAux false l

/-- Helper for `runsOf`: `cur` holds the current run reversed, if a run is
open. -/
def runsOfAux (p : Char → Bool) : Option Str → Str → List Str
  | none, [] => []
  | some cur, [] => [cur.reverse]
  | none, c :: r =>
    if p c then runsOfAux p (some [c]) r else runsOfAux p none r
  | some cur, c :: r =>
    if p c then runsOfAux p (some (c :: cur)) r
    else cur.reverse :: runsOfAux p none r

/-- Maximal runs of characters satisfying `p` (the semantics of
`re.findall(r'\w+', s)` when `p` tests for a word character, and of
`str.split()` when `p` tests for non-whitespace). -/
def runsOf (p : Char → Bool) (l : Str) : List Str := runsOfAux p none l

/-- Python `len(text.split())`: the number of whitespace-separated words,
used by `_count_tokens` as the token-count fallback (the repository is
modelled without the optional `tiktoken` dependency, which `_get_tokenizer`
treats as absent by falling back to word counts). -/
def wordCount (l : Str) : Nat := (runsOf (fun c => !isWs c) l).length

/-- Whether `sub` occurs as a contiguous substring of `l`: the semantics of
`re.compile(re.escape(sub)).search(l)` being truthy. -/
def subOccurs (sub : Str) : Str → Bool
  | [] => sub.isEmpty
  | c :: t => sub.isPrefixOf (c :: t) || subOccurs sub t

/-- Sentence-terminal punctuation: the regex class `[.!?]` of
`_SENTENCE_SPLIT_RE`. -/
def isTermPunct (c : Char) : Bool := c == '.' || c == '!' || c == '?'

/-- The regex class `[A-Z0-9"']` (uppercase ASCII letter, digit, double or
single quote) from the lookahead of `_SENTENCE_SPLIT_RE`; the single-quote
character is written by its code point 39. -/
def isUpperDigitQuote (c : Char) : Bool :=
  (65 ≤ c.toNat && c.toNat ≤ 90) || (48 ≤ c.toNat && c.toNat ≤ 57) ||
    c == '"' || c.toNat == 39

/-- Boundary test of the primary sentence-split regex
`(?<=[.!?])\s+(?=[A-Z0-9"'])` at a (single, post-collapse) space: `p` is the
character before the space and the argument is the character after it, if
any (the lookahead fails at end of text). -/
def primaryBoundary (p : Char) : Option Char → Bool
  | some d => isTermPunct p && isUpperDigitQuote d
  | none => false

/-- Boundary test of the fallback split regex `(?<=[.?!])\s+`: only the
character before the space matters. -/
def fallbackBoundary (p : Char) (_ : Option Char) : Bool := isTermPunct p

/-- Generic splitter realising `re.split` for a pattern that consumes one
space whose neighbourhood satisfies `P prev next?`.  On
whitespace-collapsed text every `\s+` match is a single space, so both
sentence-split regexes of `_split_into_sentences` are instances.  `acc`
holds the current segment in reverse. -/
def gsplit (P : Char → Option Char → Bool) : Str → Str → List Str
  | acc, [] => [acc.reverse]
  | [], c :: rest => gsplit P [c] rest
  | p :: as, c :: rest =>
    if c = ' ' && P p rest.head? then
      (p :: as).reverse :: gsplit P [] rest
    else gsplit P (c :: p :: as) rest

/-- `_split_into_sentences` from `utils/ingest.py`: whitespace is collapsed
and stripped, the text is split at primary boundaries, the naive fallback
split is used if that yields a single block, and stripped-empty parts are
discarded. -/
def splitSentences (text : Str) : List Str :=
  if text = [] then []
  else
    let t := trimChars (collapseWs text)
    let parts := gsplit primaryBoundary [] t
    let parts2 := if parts.length = 1 then gsplit fallbackBoundary [] t else parts
    (parts2.map trimChars).filter (· ≠ [])

/-! ### Chunker (`chunk_text` in `utils/ingest.py`) -/

/-- Error raised by `chunk_text` for a non-positive resolved chunk size
(`ValueError("chunk_size must be > 0")`, the spec's `ConfigError`). -/
inductive ChunkError
  | configError
deriving DecidableEq

/-- Python's `x or default` applied to an optional integer argument: `None`
and the falsy value `0` are replaced by the default, every other value —
including negative ones — is kept. -/
def orDefault : Option Int → Int → Int
  | none, d => d
  | some v, d => if v = 0 then d else v

/-- `config.CHUNK_SIZE` default (words). -/
def configChunkSize : Int := 1200

/-- `config.CHUNK_OVERLAP` default (words). -/
def configChunkOverlap : Int := 200

/-- The inner accumulation loop of `chunk_text`:
`while j < N and token_acc < chunk_size: token_acc += sent_tokens[j]; j += 1`.
`fuel` is structural fuel; `toks.length - j` is always sufficient since `j`
increases by one while `j < toks.length`. -/
def accumulate (toks : List Nat) (cs : Int) : Nat → Nat → Int → Nat
  | 0, j, _ => j
  | fuel + 1, j, acc =>
    if j < toks.length ∧ acc < cs then
      accumulate toks cs fuel (j + 1) (acc + (toks.getD j 0 : Int))
    else j

/-- The overlap walk-back loop of `chunk_text`:
starting from `k = 0, ov_acc = 0`, while `j - 1 - k >= 0` and
`ov_acc < overlap`, accumulate `sent_tokens[j-1-k]`, increment `k`, and
break early once `j - k <= i`.  Returns `k`.  `fuel = j` is always
sufficient since the loop condition forces `k < j`. -/
def walkBackAux (toks : List Nat) (ov : Int) (i j : Nat) : Nat → Nat → Int → Nat
  | 0, k, _ => k
  | fuel + 1, k, acc =>
    if k + 1 ≤ j ∧ acc < ov then
      let acc' := acc + (toks.getD (j - 1 - k) 0 : Int)
      let k' := k + 1
      if (j : Int) - k' ≤ (i : Int) then k' else walkBackAux toks ov i j fuel k' acc'
    else k

/-- The number of sentences the overlap logic steps back over. -/
def walkBack (toks : List Nat) (ov : Int) (i j : Nat) : Nat :=
  walkBackAux toks ov i j j 0 0

/-- One outer iteration's successor start index: `next_start = j` when
`overlap <= 0`, else `max(i + 1, j - k)` (never at or before the previous
start `i`). -/
def nextStart (toks : List Nat) (ov : Int) (i j : Nat) : Nat :=
  if ov ≤ 0 then j else max (i + 1) (j - walkBack toks ov i j)

/-- The outer `while i < N` loop of `chunk_text`, producing the sentence
index range `[i, j)` of each chunk in order.  The emitted chunk text does
not influence the control flow, so the loop is modelled on ranges and the
rendering/filtering is applied afterwards (`chunkCore`).  `fuel` is
structural fuel; `chunk_text` runs it with fuel `N`, which suffices for any
positive chunk size because the start index strictly increases. -/
def chunkLoop (toks : List Nat) (cs ov : Int) : Nat → Nat → List (Nat × Nat)
  | 0, _ => []
  | fuel + 1, i =>
    if i < toks.length then
      let j := accumulate toks cs (toks.length - i) i 0
      if toks.length ≤ j then [(i, j)]
      else (i, j) :: chunkLoop toks cs ov fuel (nextStart toks ov i j)
    else []

/-- `" ".join(chunk_sentences).strip()` for the sentence range `[r.1, r.2)`. -/
def renderChunk (sentences : List Str) (r : Nat × Nat) : Str :=
  trimChars (List.intercalate [' '] ((sentences.drop r.1).take (r.2 - r.1)))

/-- The body of `chunk_text` after parameter validation: split into
sentences, precompute word-count tokens, run the chunking loop, join each
chunk's sentences with single spaces and keep the non-empty ones (the
`if chunk_text: chunks.append(chunk_text)` guard). -/
def chunkCore (sentences : List Str) (cs ov : Int) : List Str :=
  let toks := sentences.map wordCount
  (chunkLoop toks cs ov sentences.length 0).filterMap fun r =>
    if renderChunk sentences r = [] then none else some (renderChunk sentences r)

/-- `chunk_text(text, chunk_size, overlap)` from `utils/ingest.py`,
including the `chunk_size = chunk_size or config.CHUNK_SIZE` /
`overlap = overlap or config.CHUNK_OVERLAP` defaulting and the
`chunk_size <= 0` guard. -/
def chunk_textE (text : Str) (chunk_size overlap : Option Int) :
    Except ChunkError (List Str) :=
  let cs := orDefault chunk_size configChunkSize
  let ov := orDefault overlap configChunkOverlap
  if cs ≤ 0 then .error .configError
  else .ok (chunkCore (splitSentences text) cs ov)

/-- `chunk_text(text)` as invoked by `index_documents` (all defaults); with
the positive default size this never raises. -/
def chunk_textRun (text : Str) : List Str :=
  chunkCore (splitSentences text) configChunkSize configChunkOverlap

/-! ### Header/footer removal (`_remove_repeated_headers` in `utils/ingest.py`) -/

/-- `[ln.strip() for ln in page.splitlines() if ln.strip()]`: the trimmed,
non-empty lines of one page. -/
def pageLines (p : Str) : List Str :=
  ((p.splitOn '\n').map trimChars).filter (· ≠ [])

/-- Candidate length test `3 <= len(ln) <= 120`. -/
def candLen (ln : Str) : Bool := decide (3 ≤ ln.length ∧ ln.length ≤ 120)

/-- All candidate (short) lines across all pages, in page order — exactly
the keys fed to the `candidate_counts` dictionary. -/
def candLines (pages : List Str) : List Str :=
  (pages.flatMap pageLines).filter candLen

/-- One dictionary update
`candidate_counts[ln] = candidate_counts.get(ln, 0) + 1`. -/
def bump : List (Str × Nat) → Str → List (Str × Nat)
  | [], k => [(k, 1)]
  | (k0, c) :: m, k =>
    if k0 = k then (k0, c + 1) :: m else (k0, c) :: bump m k

/-- The `candidate_counts` dictionary as an association list (key order is
irrelevant: it is only consumed through membership tests). -/
def buildCounts : List Str → List (Str × Nat)
  | [] => []
  | l :: ls => bump (buildCounts ls) l

/-- The repetition threshold `max(2, len(pages)//6)`. -/
def headerThreshold (pages : List Str) : Nat := max 2 (pages.length / 6)

/-- The `repeated` set:
`{ln for ln, c in candidate_counts.items() if c >= max(2, len(pages)//6)}`. -/
def repeatedKeys (pages : List Str) : List Str :=
  (buildCounts (candLines pages)).filterMap fun kv =>
    if headerThreshold pages ≤ kv.2 then some kv.1 else none

/-- Whether `pattern.search(ln)` is truthy, for the alternation pattern of
all (escaped) repeated lines: some repeated line occurs inside `ln`.  (The
code sorts the alternatives by length; that only affects which alternative
matches first, not whether a match exists.  An empty `repeated` set means
`pattern is None` and no line is removed, which coincides with `any` over
the empty list.) -/
def lineMatchesRepeated (pages : List Str) (ln : Str) : Bool :=
  (repeatedKeys pages).any fun r => subOccurs r ln

/-- `_remove_repeated_headers(pages)` from `utils/ingest.py`: per page,
drop every (trimmed, non-empty) line the repeated-header pattern matches,
rejoin each page's surviving lines with `"\n"` and the pages with
`"\n\n"`. -/
def removeRepeatedHeaders (pages : List Str) : Str :=
  List.intercalate ['\n', '\n'] <| pages.map fun p =>
    List.intercalate ['\n'] <|
      (pageLines p).filter fun ln => !lineMatchesRepeated pages ln

/-- Modelled from the claim's words (for comparison with the code): remove
exactly those candidate-length lines that recur on at least
`max(2, page_count // 6)` *distinct pages*; every other line is kept. -/
def claimedHeaderRemoval (pages : List Str) : Str :=
  List.intercalate ['\n', '\n'] <| pages.map fun p =>
    List.intercalate ['\n'] <|
      (pageLines p).filter fun ln =>
        !(candLen ln &&
          decide (headerThreshold pages ≤ pages.countP (fun q => ln ∈ pageLines q)))

/-- What the code actually implements, stated declaratively: a line is
removed iff some candidate-length line with at least
`max(2, page_count // 6)` total occurrences (across all pages, with
multiplicity) occurs in it as a contiguous substring. -/
def amendedHeaderRemoval (pages : List Str) : Str :=
  List.intercalate ['\n', '\n'] <| pages.map fun p =>
    List.intercalate ['\n'] <|
      (pageLines p).filter fun ln =>
        !((pages.flatMap pageLines).any fun r =>
          candLen r &&
            decide (headerThreshold pages ≤ (candLines pages).count r) &&
            subOccurs r ln)

/-! ### Hybrid retriever (`utils/retriever.py`) -/

/-- One metadata record `{"doc_id": ..., "chunk_id": ..., "text": ...}`. -/
structure MetaRec where
  doc_id : Str
  chunk_id : Nat
  text : Str
deriving DecidableEq, Repr

/-- One retrieval result `{score, doc_id, chunk_id, text}`. -/
structure RetrievalResult where
  score : ℚ
  doc_id : Str
  chunk_id : Nat
  text : Str
deriving DecidableEq, Repr

/-- Python `\w` word-character test (ASCII fragment of `re.UNICODE`). -/
def isWordChar (c : Char) : Bool := c.isAlphanum || c == '_'

/-- `re.findall(r"\w+", s.lower())`: maximal word-character runs of the
lowercased text. -/
def wordTokensLower (s : Str) : List Str :=
  runsOf isWordChar (s.map Char.toLower)

/-- `_keyword_score(query, text)` from `utils/retriever.py`:
`len(set(findall(query.lower())) & set(findall(text.lower())))`, the number
of distinct lowercase word tokens shared by query and text. -/
def keywordScore (query text : Str) : Nat :=
  ((wordTokensLower query).toFinset ∩ (wordTokensLower text).toFinset).card

/-- Build a result dict from a score and a metadata record. -/
def mkResult (score : ℚ) (m : MetaRec) : RetrievalResult :=
  ⟨score, m.doc_id, m.chunk_id, m.text⟩

/-- The semantic phase of `retrieve`: walk the `(score, idx)` pairs returned
by `index.search` in order, skip any index outside `[0, len(metadata))`
(`if idx < 0 or idx >= len(metadata): continue`), and build a result from
`metadata[idx]` for the rest. -/
def semanticResults (metadata : List MetaRec) (searchOut : List (ℚ × Int)) :
    List RetrievalResult :=
  searchOut.filterMap fun p =>
    if p.2 < 0 ∨ (metadata.length : Int) ≤ p.2 then none
    else (metadata.get? p.2.toNat).map (mkResult p.1)

/-- `results[0]["score"] if results else 0.0`. -/
def topScore : List RetrievalResult → ℚ
  | [] => 0
  | r :: _ => r.score

/-- The deduplication key `(doc_id, chunk_id)`. -/
def resKey (r : RetrievalResult) : Str × Nat := (r.doc_id, r.chunk_id)

/-- The lexical candidates `(score, metadata record)` with score `> 0`,
sorted by score descending; Python's `list.sort(key=..., reverse=True)` is
a stable descending sort, realised here by `List.insertionSort` with the
relation "left score at least right score" (stable for that relation). -/
def lexRanked (query : Str) (metadata : List MetaRec) : List (Nat × MetaRec) :=
  List.insertionSort (fun a b => b.1 ≤ a.1)
    (metadata.filterMap fun m =>
      let sc := keywordScore query m.text
      if 0 < sc then some (sc, m) else none)

/-- The lexical-fallback additions: of the top `lexical_k` ranked lexical
candidates, those whose `(doc_id, chunk_id)` key is not already present,
each given the pseudo-score `sc / 100`.  (The `added >= lexical_k` break in
the source can never fire early because at most `lexical_k` candidates are
scanned.) -/
def lexAdditions (query : Str) (metadata : List MetaRec)
    (existingKeys : List (Str × Nat)) (lexical_k : Nat) : List RetrievalResult :=
  (((lexRanked query metadata).take lexical_k).filter fun sm =>
      !(existingKeys.contains (sm.2.doc_id, sm.2.chunk_id))).map
    fun sm => ⟨(sm.1 : ℚ) / 100, sm.2.doc_id, sm.2.chunk_id, sm.2.text⟩

/-- `retrieve(query, index, metadata, k, lexical_k, sim_threshold)` from
`utils/retriever.py`, modelled from the point where the vector search has
returned its `(score, index)` pairs (`zip(D[0], I[0])`); the embedding call
and `index.search` are external.  The final
`results[:max(k, len(results))]` keeps the whole list, since the slice
bound is at least the length. -/
def retrieve (query : Str) (metadata : List MetaRec) (searchOut : List (ℚ × Int))
    (k lexical_k : Nat) (sim_threshold : ℚ) : List RetrievalResult :=
  let results := semanticResults metadata searchOut
  let results2 :=
    if topScore results < sim_threshold then
      results ++ lexAdditions query metadata (results.map resKey) lexical_k
    else results
  let sorted := List.insertionSort (fun a b => b.score ≤ a.score) results2
  sorted.take (max k sorted.length)

/-! ### Index builder (`index_documents` in `utils/ingest.py`) -/

/-- The corpus accumulation loop of `index_documents`: for each
`(doc_name, text)` pair in order, chunk the text and append one metadata
record `{"doc_id": doc_name, "chunk_id": idx, "text": c}` per chunk
(`for idx, c in enumerate(chunks)`) alongside the flat chunk list. -/
def buildCorpus (docs : List (Str × Str)) : List MetaRec × List Str :=
  docs.foldl
    (fun acc d =>
      let chunks := chunk_textRun d.2
      (acc.1 ++ chunks.enum.map fun ic => ⟨d.1, ic.1, ic.2⟩, acc.2 ++ chunks))
    ([], [])

/-- Fixed embedding batch size (`batch_size = 20`). -/
def batchSize : Nat := 20

/-- Helper for `batchedEmbed` with structural fuel (sufficient whenever
`fuel ≥ texts.length`, since each step consumes at least one text). -/
def batchedEmbedAux (embed : List Str → List (List ℚ)) :
    Nat → List Str → List (List ℚ)
  | _, [] => []
  | 0, _ :: _ => []
  | fuel + 1, t :: ts =>
    embed ((t :: ts).take batchSize) ++ batchedEmbedAux embed fuel (ts.drop (batchSize - 1))

/-- The batching loop of `index_documents`:
`for i in range(0, len(all_chunks), batch_size): embeddings.extend(embed_texts(all_chunks[i:i+batch_size]))`. -/
def batchedEmbed (embed : List Str → List (List ℚ)) (texts : List Str) : List (List ℚ) :=
  batchedEmbedAux embed texts.length texts

/-- `faiss.normalize_L2` applied to one row: divide each coordinate by the
Euclidean norm of the vector. -/
noncomputable def normalizeL2 (v : List ℚ) : List ℝ :=
  v.map fun x => (x : ℝ) / Real.sqrt ((v.map fun y => ((y : ℝ) ^ 2)).sum)

/-- `index_documents` from `utils/ingest.py`, modelled from the point where
each document's text has been extracted (extraction is I/O): accumulate
chunks and metadata, fail on an empty corpus
(`raise RuntimeError("No text extracted ...")`), embed in batches of 20,
L2-normalize every vector and return the index rows together with the
metadata.  A `faiss.IndexFlatIP` holds exactly the rows passed to
`index.add`, in order, so the index is modelled as that row list. -/
noncomputable def index_documents (docs : List (Str × Str))
    (embed : List Str → List (List ℚ)) :
    Except String (List (List ℝ) × List MetaRec) :=
  let md := (buildCorpus docs).1
  let allChunks := (buildCorpus docs).2
  if allChunks.isEmpty then .error "No text extracted from provided documents."
  else .ok ((batchedEmbed embed allChunks).map normalizeL2, md)

/-! ### Persistence of the index/metadata pair (`index_documents`, save path) -/

/-- Tags for the payloads written by the save path. -/
inductive Payload
  | indexData
  | metaData
  | debugData
deriving DecidableEq, Repr

/-- File-system operations relevant to the save path.  `rename` is included
so that the *absence* of any atomic rename/swap in the code's trace is
expressible. -/
inductive FsOp
  | mkdir (path : Str)
  | write (path : Str) (content : Payload)
  | rename (src dst : Str)
deriving DecidableEq, Repr

/-- `config.VECTOR_STORE_PATH` default (`DATA_DIR / "faiss.index"`). -/
def vectorStorePath : Str := "data/faiss.index".data

/-- `config.METADATA_PATH` default (`DATA_DIR / "metadata.json"`). -/
def metadataPath : Str := "data/metadata.json".data

/-- Debug artifact path (`VECTOR_STORE_PATH parent / "ingest_debug.json"`). -/
def debugPath : Str := "data/ingest_debug.json".data

/-- The exact sequence of file-system operations the `save_index` branch of
`index_documents` performs (lines 284–297 of `utils/ingest.py`):
`os.makedirs(...)`, `faiss.write_index(index, VECTOR_STORE_PATH)`,
`open(METADATA_PATH, "w")` + `json.dump`, and, when `debug`, the debug-info
dump.  Every write goes directly to the final path. -/
def saveOutputs (debug : Bool) : List FsOp :=
  FsOp.mkdir "data".data ::
    FsOp.write vectorStorePath Payload.indexData ::
      FsOp.write metadataPath Payload.metaData ::
        (if debug then [FsOp.write debugPath Payload.debugData] else [])

/-- A file-system snapshot: maps a path to `some (isNew, payload)` for a
file present on disk (`isNew` marks content produced by this save). -/
def FileState := Str → Option (Bool × Payload)

/-- Effect of one operation on a snapshot. -/
def applyOp (st : FileState) : FsOp → FileState
  | .mkdir _ => st
  | .write p c => fun q => if q = p then some (true, c) else st q
  | .rename src dst => fun q =>
      if q = dst then st src else if q = src then none else st q

/-- Effect of an operation sequence on a snapshot. -/
def applyOps (st : FileState) (ops : List FsOp) : FileState :=
  ops.foldl applyOp st

/-- A store already holding an old consistent index/metadata pair. -/
def initialStore : FileState := fun q =>
  if q = vectorStorePath then some (false, Payload.indexData)
  else if q = metadataPath then some (false, Payload.metaData)
  else none

/-- Whether an operation is a rename/swap. -/
def isRenameOp : FsOp → Bool
  | .rename _ _ => true
  | _ => false

/-! ### Remaining helper definitions used by the theorems -/

/-- `candidate_counts.get(k, 0)`: dictionary lookup in the association
list. -/
def getCount : List (Str × Nat) → Str → Nat
  | [], _ => 0
  | (k0, c) :: m, k => if k0 = k then c else getCount m k

/-- Concatenate the *non-overlapping portions* of a list of sentence-index
ranges: `e` is the highest sentence index already covered by earlier
chunks, each range contributes the indices it covers beyond `e`.  The
designated overlap region of a chunk is exactly the part of its range
already covered by its predecessors. -/
def nonOverlapConcat : Nat → List (Nat × Nat) → List Nat
  | _, [] => []
  | e, r :: rs =>
    List.range' (max r.1 e) (r.2 - max r.1 e) ++ nonOverlapConcat (max e r.2) rs

/-- The largest semantic score in a result list (`0` for the empty list,
matching the `results[0]["score"] if results else 0.0` convention). -/
def maxScore : List RetrievalResult → ℚ
  | [] => 0
  | [r] => r.score
  | r :: r2 :: rs => max r.score (maxScore (r2 :: rs))

/-! ### Theorems -/

/-- C4, failing-input evaluation (status: code_bug).  The spec requires
`chunk_text` to fail with `ConfigError` for every `chunk_size_tokens ≤ 0`,
including exactly `0`, and the code's own guard
`if chunk_size <= 0: raise ValueError("chunk_size must be > 0")` shows the
same intent; but the preceding Python idiom
`chunk_size = chunk_size or config.CHUNK_SIZE` treats `0` as falsy and
silently replaces it with the default `1200`, so `chunk_text(text, 0)`
succeeds and returns chunks.  A negative size is kept by `or` and does
raise. -/
theorem chunk_text_zero_size_is_not_rejected :
    chunk_textE ("Hi there. Ok.".data) (some 0) none =
      .ok ["Hi there. Ok.".data] ∧
    chunk_textE ("Hi there. Ok.".data) (some (-1)) none = .error .configError :=
  ⟨rfl, rfl⟩

/-- C2, counterexample (status: corrected).  The claim states that the save
path writes to temporary locations and atomically swaps/renames into
place, so that a reader sees either the old pair or the new pair, never a
mix.  In the code (`utils/ingest.py`, lines 284–297) the index and the
metadata are each written *directly* to their final paths and no rename
occurs anywhere in the operation sequence; a reader that observes the
store between the two writes (after the first two operations) sees the new
index together with the old metadata — a mixed state. -/
theorem saveOutputs_not_atomic :
    FsOp.write vectorStorePath Payload.indexData ∈ saveOutputs true ∧
    FsOp.write metadataPath Payload.metaData ∈ saveOutputs true ∧
    (saveOutputs true).all (fun op => !isRenameOp op) = true ∧
    (saveOutputs false).all (fun op => !isRenameOp op) = true ∧
    applyOps initialStore ((saveOutputs true).take 2) vectorStorePath =
      some (true, Payload.indexData) ∧
    applyOps initialStore ((saveOutputs true).take 2) metadataPath =
      some (false, Payload.metaData) := by
  refine ⟨?_, ?_, ?_, ?_, ?_, ?_⟩ <;> decide

/-- C2, amended claim (status: corrected).  What does hold: whenever the
save path runs, both files are written in the same operation sequence —
the metadata write directly follows the index write, so the metadata is
never overwritten without the matching index being overwritten in the same
operation — but the writes go straight to the final paths, no temporary
file and no atomic rename/swap is used, and a reader between the two
writes can observe the new index paired with the old metadata. -/
theorem saveOutputs_pairs_writes_without_rename :
    (saveOutputs true).get? 1 = some (FsOp.write vectorStorePath Payload.indexData) ∧
    (saveOutputs true).get? 2 = some (FsOp.write metadataPath Payload.metaData) ∧
    (saveOutputs false).get? 1 = some (FsOp.write vectorStorePath Payload.indexData) ∧
    (saveOutputs false).get? 2 = some (FsOp.write metadataPath Payload.metaData) ∧
    (saveOutputs true).all (fun op => !isRenameOp op) = true ∧
    (saveOutputs false).all (fun op => !isRenameOp op) = true ∧
    ((saveOutputs true).all fun op =>
      match op with
      | FsOp.write p _ =>
        decide (p = vectorStorePath ∨ p = metadataPath ∨ p = debugPath)
      | _ => true) = true ∧
    applyOps initialStore ((saveOutputs false).take 2) vectorStorePath =
      some (true, Payload.indexData) ∧
    applyOps initialStore ((saveOutputs false).take 2) metadataPath =
      some (false, Payload.metaData) := by
  refine ⟨rfl, rfl, rfl, rfl, ?_, ?_, ?_, ?_, ?_⟩ <;> decide

/-- One dictionary update changes exactly the bumped key's count. -/
theorem getCount_bump (m : List (Str × Nat)) (k x : Str) :
    getCount (bump m k) x = if x = k then getCount m k + 1 else getCount m x := by
  induction m with
  | nil =>
    by_cases h : x = k
    · subst h; simp [bump, getCount]
    · have h2 : ¬(k = x) := fun hh => h hh.symm
      simp [bump, getCount, h, h2]
  | cons kv m ih =>
    obtain ⟨k0, c⟩ := kv
    by_cases hk : k0 = k
    · subst hk
      by_cases hx : x = k0
      · subst hx; simp [bump, getCount]
      · have h2 : ¬(k0 = x) := fun hh => hx hh.symm
        simp [bump, getCount, hx, h2]
    · by_cases hx : x = k0
      · subst hx
        have hxk : ¬(x = k) := fun hh => hk (hh ▸ rfl)
        simp [bump, getCount, hk, hxk]
      · have h2 : ¬(k0 = x) := fun hh => hx hh.symm
        simp [bump, getCount, hk, h2, ih]

/-- The dictionary built by the counting loop holds exactly the occurrence
count of each key. -/
theorem getCount_buildCounts (ls : List Str) (k : Str) :
    getCount (buildCounts ls) k = ls.count k := by
  induction ls with
  | nil => simp [buildCounts, getCount]
  | cons l ls ih =>
    by_cases h : k = l
    · subst h
      simp [buildCounts, getCount_bump, ih, List.count_cons]
    · simp [buildCounts, getCount_bump, h, ih, List.count_cons]

/-- Bumping key `k` adds `k` to the key set and keeps the others. -/
theorem mem_keys_bump (m : List (Str × Nat)) (k x : Str) :
    x ∈ (bump m k).map Prod.fst ↔ x ∈ m.map Prod.fst ∨ x = k := by
  induction m with
  | nil => simp [bump]
  | cons kv m ih =>
    obtain ⟨k0, c⟩ := kv
    by_cases hk : k0 = k
    · subst hk
      rw [show bump ((k0, c) :: m) k0 = (k0, c + 1) :: m from by simp [bump]]
      simp only [List.map_cons, List.mem_cons]
      tauto
    · rw [show bump ((k0, c) :: m) k = (k0, c) :: bump m k from by simp [bump, hk]]
      simp only [List.map_cons, List.mem_cons, ih]
      tauto

/-- Membership in the keys of the counting dictionary. -/
theorem mem_keys_buildCounts (ls : List Str) (x : Str) :
    x ∈ (buildCounts ls).map Prod.fst ↔ x ∈ ls := by
  induction ls with
  | nil => simp [buildCounts]
  | cons l ls ih =>
    simp only [buildCounts, mem_keys_bump, ih, List.mem_cons]
    tauto

/-- Bumping preserves distinctness of dictionary keys. -/
theorem nodup_keys_bump (m : List (Str × Nat)) (k : Str)
    (h : (m.map Prod.fst).Nodup) : ((bump m k).map Prod.fst).Nodup := by
  induction m with
  | nil => simp [bump]
  | cons kv m ih =>
    obtain ⟨k0, c⟩ := kv
    rw [List.map_cons, List.nodup_cons] at h
    by_cases hk : k0 = k
    · subst hk
      rw [show bump ((k0, c) :: m) k0 = (k0, c + 1) :: m from by simp [bump]]
      rw [List.map_cons, List.nodup_cons]
      exact ⟨h.1, h.2⟩
    · rw [show bump ((k0, c) :: m) k = (k0, c) :: bump m k from by simp [bump, hk]]
      rw [List.map_cons, List.nodup_cons]
      refine ⟨?_, ih h.2⟩
      intro hmem
      rcases (mem_keys_bump m k k0).1 hmem with h1 | h1
      · exact h.1 h1
      · exact hk h1

/-- The counting dictionary has distinct keys. -/
theorem nodup_keys_buildCounts (ls : List Str) :
    ((buildCounts ls).map Prod.fst).Nodup := by
  induction ls with
  | nil => simp [buildCounts]
  | cons l ls ih => exact nodup_keys_bump _ _ ih

/-- In an association list with distinct keys, membership of a pair is
membership of the key together with the looked-up count. -/
theorem mem_assoc_iff (m : List (Str × Nat)) (h : (m.map Prod.fst).Nodup)
    (x : Str) (c : Nat) :
    (x, c) ∈ m ↔ x ∈ m.map Prod.fst ∧ c = getCount m x := by
  induction m with
  | nil => simp
  | cons kv m ih =>
    obtain ⟨k0, c0⟩ := kv
    rw [List.map_cons, List.nodup_cons] at h
    by_cases hx : x = k0
    · subst hx
      rw [List.mem_cons, List.map_cons, List.mem_cons]
      rw [show getCount ((x, c0) :: m) x = c0 from by simp [getCount]]
      constructor
      · rintro (h1 | h1)
        · exact ⟨Or.inl rfl, (congrArg Prod.snd h1 : c = c0)⟩
        · exact absurd (List.mem_map_of_mem Prod.fst h1) h.1
      · rintro ⟨-, h2⟩
        subst h2
        exact Or.inl rfl
    · have h2 : ¬(k0 = x) := fun hh => hx hh.symm
      rw [List.mem_cons, List.map_cons, List.mem_cons]
      rw [show getCount ((k0, c0) :: m) x = getCount m x from by simp [getCount, h2]]
      rw [ih h.2]
      constructor
      · rintro (h1 | h1)
        · exact absurd (congrArg Prod.fst h1 : x = k0) hx
        · exact ⟨Or.inr h1.1, h1.2⟩
      · rintro ⟨h1 | h1, hc⟩
        · exact absurd h1 hx
        · exact Or.inr ⟨h1, hc⟩

/-- Characterisation of the `repeated` set: a line is in it iff it is a
candidate line (trimmed, non-empty, length 3–120) whose total number of
occurrences across all pages reaches the threshold. -/
theorem mem_repeatedKeys (pages : List Str) (x : Str) :
    x ∈ repeatedKeys pages ↔
      x ∈ candLines pages ∧ headerThreshold pages ≤ (candLines pages).count x := by
  unfold repeatedKeys
  rw [List.mem_filterMap]
  constructor
  · rintro ⟨⟨k, c⟩, hmem, hf⟩
    by_cases hτ : headerThreshold pages ≤ c
    · simp only [if_pos hτ, Option.some.injEq] at hf
      subst hf
      rcases (mem_assoc_iff _ (nodup_keys_buildCounts _) k c).1 hmem with ⟨hk, hc⟩
      rw [mem_keys_buildCounts] at hk
      refine ⟨hk, ?_⟩
      rw [← getCount_buildCounts]
      omega
    · simp only [if_neg hτ] at hf
      exact absurd hf (by simp)
  · rintro ⟨hmem, hτ⟩
    refine ⟨(x, (candLines pages).count x), ?_, ?_⟩
    · rw [mem_assoc_iff _ (nodup_keys_buildCounts _)]
      rw [mem_keys_buildCounts, getCount_buildCounts]
      exact ⟨hmem, rfl⟩
    · simp only [if_pos hτ]

/-- The removal test of the code, re-expressed without the dictionary: a
line matches iff some candidate-length line with enough total occurrences
occurs in it as a substring. -/
theorem lineMatchesRepeated_eq (pages : List Str) (ln : Str) :
    lineMatchesRepeated pages ln =
      ((pages.flatMap pageLines).any fun r =>
        candLen r && decide (headerThreshold pages ≤ (candLines pages).count r) &&
          subOccurs r ln) := by
  rw [Bool.eq_iff_iff]
  unfold lineMatchesRepeated
  simp only [List.any_eq_true]
  constructor
  · rintro ⟨r, hr, ho⟩
    rcases (mem_repeatedKeys pages r).1 hr with ⟨hc, hτ⟩
    unfold candLines at hc
    rw [List.mem_filter] at hc
    exact ⟨r, hc.1, by simp [hc.2, hτ, ho]⟩
  · rintro ⟨r, hr, hprop⟩
    simp only [Bool.and_eq_true, decide_eq_true_eq] at hprop
    refine ⟨r, ?_, hprop.2⟩
    rw [mem_repeatedKeys]
    refine ⟨?_, hprop.1.2⟩
    unfold candLines
    rw [List.mem_filter]
    exact ⟨hr, hprop.1.1⟩

/-- C5, counterexample (status: corrected).  The claim says that *exactly*
the candidate-length lines recurring on at least `max(2, page_count // 6)`
*distinct pages* are removed and every other line is kept.  On the
two-page input below, the line `dup` occurs twice on a *single* page (so it
recurs on only one distinct page, and the claim keeps it), yet the code
counts total occurrences and classifies it as repeated; moreover the
unique line `xdupx` is also removed, because the code removes any line the
repeated-line pattern *matches as a substring* (`pattern.search`), not
only lines equal to a repeated line.  The code's output therefore differs
from the claim's prediction. -/
theorem removeRepeatedHeaders_counterexample :
    removeRepeatedHeaders ["dup\ndup\nxdupx".data, "keep".data] = "\n\nkeep".data ∧
    claimedHeaderRemoval ["dup\ndup\nxdupx".data, "keep".data] =
      "dup\ndup\nxdupx\n\nkeep".data ∧
    removeRepeatedHeaders ["dup\ndup\nxdupx".data, "keep".data] ≠
      claimedHeaderRemoval ["dup\ndup\nxdupx".data, "keep".data] := by
  refine ⟨?_, ?_, ?_⟩ <;> decide

/-- C5, amended claim (status: corrected).  In the header/footer removal,
exactly those trimmed non-empty lines are removed that *contain as a
contiguous substring* some trimmed non-empty line of length 3–120 whose
*total occurrence count* across all pages (with multiplicity) is at least
`max(2, page_count // 6)`; every other line is kept.  In particular the
concrete scenario of the claim still holds: for two documents each
carrying the literal line `"INTERNAL — CONFIDENTIAL"` on every page, that
line is absent from both documents' final extracted text. -/
theorem removeRepeatedHeaders_characterisation :
    (∀ pages : List Str, removeRepeatedHeaders pages = amendedHeaderRemoval pages) ∧
    removeRepeatedHeaders
        ["INTERNAL — CONFIDENTIAL\nAlpha body".data,
         "INTERNAL — CONFIDENTIAL\nBeta body".data,
         "INTERNAL — CONFIDENTIAL\nGamma body".data] =
      "Alpha body\n\nBeta body\n\nGamma body".data ∧
    removeRepeatedHeaders
        ["INTERNAL — CONFIDENTIAL\nSection one".data,
         "INTERNAL — CONFIDENTIAL\nSection two".data,
         "INTERNAL — CONFIDENTIAL\nSection three".data] =
      "Section one\n\nSection two\n\nSection three".data := by
  refine ⟨?_, by decide, by decide⟩
  intro pages
  unfold removeRepeatedHeaders amendedHeaderRemoval
  simp only [lineMatchesRepeated_eq]

/-- Witness for `removeRepeatedHeaders_characterisation` at a concrete
page list. -/
theorem removeRepeatedHeaders_characterisation_witness :
    removeRepeatedHeaders ["HDR\nBody one".data, "HDR\nBody two".data] =
      amendedHeaderRemoval ["HDR\nBody one".data, "HDR\nBody two".data] :=
  removeRepeatedHeaders_characterisation.1 ["HDR\nBody one".data, "HDR\nBody two".data]


/-- The semantic phase keeps exactly the in-range search hits: one result
per `(score, idx)` pair with `0 ≤ idx < len(metadata)`. -/
theorem semanticResults_length (md : List MetaRec) (so : List (ℚ × Int)) :
    (semanticResults md so).length =
      (so.filter fun p => decide (0 ≤ p.2 ∧ p.2 < (md.length : Int))).length := by
  induction so with
  | nil => rfl
  | cons p so ih =>
    unfold semanticResults at ih ⊢
    simp only [List.filterMap_cons, List.filter_cons]
    by_cases hv : 0 ≤ p.2 ∧ p.2 < (md.length : Int)
    · have hcond : ¬(p.2 < 0 ∨ (md.length : Int) ≤ p.2) := by omega
      have hn : p.2.toNat < md.length := by omega
      obtain ⟨m, hg⟩ : ∃ m, md.get? p.2.toNat = some m := ⟨_, List.get?_eq_get hn⟩
      rw [if_neg hcond, hg]
      simpa [hv] using ih
    · have hcond : p.2 < 0 ∨ (md.length : Int) ≤ p.2 := by omega
      rw [if_pos hcond]
      simpa [hv] using ih

/-- Every semantic result arises from an in-range index of the search
output applied to an actual metadata record. -/
theorem semanticResults_mem (md : List MetaRec) (so : List (ℚ × Int)) :
    ∀ r ∈ semanticResults md so, ∃ m ∈ md, ∃ p ∈ so,
      0 ≤ p.2 ∧ p.2 < (md.length : Int) ∧ md.get? p.2.toNat = some m ∧
        r = mkResult p.1 m := by
  intro r hr
  rw [semanticResults, List.mem_filterMap] at hr
  obtain ⟨p, hp, hf⟩ := hr
  by_cases hv : p.2 < 0 ∨ (md.length : Int) ≤ p.2
  · rw [if_pos hv] at hf
    exact absurd hf (by simp)
  · rw [if_neg hv] at hf
    rw [Option.map_eq_some'] at hf
    obtain ⟨m, hm, hrm⟩ := hf
    exact ⟨m, List.get?_mem hm, p, hp, by omega, by omega, hm, hrm.symm⟩

/-- Every element of a lexical-fallback addition is built from an actual
metadata record with positive keyword score. -/
theorem lexAdditions_mem (q : Str) (md : List MetaRec) (keys : List (Str × Nat))
    (lexk : Nat) :
    ∀ r ∈ lexAdditions q md keys lexk, ∃ m ∈ md,
      r.doc_id = m.doc_id ∧ r.chunk_id = m.chunk_id ∧ r.text = m.text ∧
      0 < keywordScore q m.text ∧
      r.score = (keywordScore q m.text : ℚ) / 100 ∧
      !(keys.contains (m.doc_id, m.chunk_id)) := by
  intro r hr
  rw [lexAdditions, List.mem_map] at hr
  obtain ⟨sm, hsm, hrm⟩ := hr
  rw [List.mem_filter] at hsm
  obtain ⟨hsm, hkey⟩ := hsm
  have hsm2 : sm ∈ lexRanked q md := List.mem_of_mem_take hsm
  rw [lexRanked] at hsm2
  have hsm3 := (List.perm_insertionSort _ _).mem_iff.1 hsm2
  rw [List.mem_filterMap] at hsm3
  obtain ⟨m, hm, hf⟩ := hsm3
  by_cases hsc : 0 < keywordScore q m.text
  · rw [if_pos hsc, Option.some.injEq] at hf
    subst hf
    subst hrm
    exact ⟨m, hm, rfl, rfl, rfl, hsc, rfl, hkey⟩
  · rw [if_neg hsc] at hf
    exact absurd hf (by simp)

/-- C8 (status: confirmed).  `retrieve` discards every search index outside
`[0, len(metadata))`: the kept semantic results are exactly the in-range
hits (count and provenance), and every element of the returned list —
semantic or lexical — carries the `(doc_id, chunk_id, text)` of an actual
metadata record, so no out-of-bounds metadata access occurs and no result
built from an invalid index is ever returned, even against a corrupt or
stale index file. -/
theorem retrieve_discards_out_of_range (q : Str) (md : List MetaRec)
    (so : List (ℚ × Int)) (k lexk : Nat) (θ : ℚ) :
    (semanticResults md so).length =
      (so.filter fun p => decide (0 ≤ p.2 ∧ p.2 < (md.length : Int))).length ∧
    (∀ r ∈ semanticResults md so, ∃ m ∈ md, ∃ p ∈ so,
      0 ≤ p.2 ∧ p.2 < (md.length : Int) ∧ md.get? p.2.toNat = some m ∧
        r = mkResult p.1 m) ∧
    (∀ r ∈ retrieve q md so k lexk θ, ∃ m ∈ md,
      r.doc_id = m.doc_id ∧ r.chunk_id = m.chunk_id ∧ r.text = m.text) := by
  refine ⟨semanticResults_length md so, semanticResults_mem md so, ?_⟩
  intro r hr
  simp only [retrieve] at hr
  have hr2 := List.mem_of_mem_take hr
  have hr3 := (List.perm_insertionSort _ _).mem_iff.1 hr2
  by_cases hc : topScore (semanticResults md so) < θ
  · rw [if_pos hc] at hr3
    rcases List.mem_append.1 hr3 with h | h
    · obtain ⟨m, hm, _, _, _, _, _, hrm⟩ := semanticResults_mem md so r h
      exact ⟨m, hm, by rw [hrm]; exact ⟨rfl, rfl, rfl⟩⟩
    · obtain ⟨m, hm, h1, h2, h3, -⟩ := lexAdditions_mem q md _ lexk r h
      exact ⟨m, hm, h1, h2, h3⟩
  · rw [if_neg hc] at hr3
    obtain ⟨m, hm, _, _, _, _, _, hrm⟩ := semanticResults_mem md so r hr3
    exact ⟨m, hm, by rw [hrm]; exact ⟨rfl, rfl, rfl⟩⟩

/-- C10 (status: confirmed).  When the vector search yields no valid
in-range hit, `retrieve` treats the best semantic score as `0.0`
(`results[0]["score"] if results else 0.0`), which is below the default
threshold `0.18`, so the lexical fallback is always attempted in that
case; and when the fallback also matches nothing, `retrieve` returns the
empty list — a valid outcome, not an error. -/
theorem retrieve_degrades_to_empty (q : Str) (md : List MetaRec)
    (so : List (ℚ × Int)) (k lexk : Nat)
    (hinv : ∀ p ∈ so, p.2 < 0 ∨ (md.length : Int) ≤ p.2)
    (hlex : ∀ m ∈ md, keywordScore q m.text = 0) :
    semanticResults md so = [] ∧
    topScore (semanticResults md so) = 0 ∧
    retrieve q md so k lexk (18 / 100) =
      (List.insertionSort (fun a b => b.score ≤ a.score)
          (lexAdditions q md [] lexk)).take
        (max k (List.insertionSort (fun a b => b.score ≤ a.score)
          (lexAdditions q md [] lexk)).length) ∧
    retrieve q md so k lexk (18 / 100) = [] := by
  have hsem : semanticResults md so = [] := by
    rw [semanticResults, List.filterMap_eq_nil_iff]
    intro p hp
    rw [if_pos (hinv p hp)]
  have hθ : (0 : ℚ) < 18 / 100 := by norm_num
  have hfall : retrieve q md so k lexk (18 / 100) =
      (List.insertionSort (fun a b => b.score ≤ a.score)
          (lexAdditions q md [] lexk)).take
        (max k (List.insertionSort (fun a b => b.score ≤ a.score)
          (lexAdditions q md [] lexk)).length) := by
    simp only [retrieve, hsem, topScore, if_pos hθ, List.nil_append, List.map_nil]
  refine ⟨hsem, by rw [hsem]; rfl, hfall, ?_⟩
  have hrank : lexRanked q md = [] := by
    rw [lexRanked]
    rw [show (md.filterMap fun m =>
        if 0 < keywordScore q m.text then some (keywordScore q m.text, m) else none) =
          ([] : List (Nat × MetaRec)) from ?_]
    · rfl
    · rw [List.filterMap_eq_nil_iff]
      intro m hm
      rw [if_neg (by simp [hlex m hm])]
  have hadd : lexAdditions q md [] lexk = [] := by
    rw [lexAdditions, hrank]
    simp
  rw [hfall, hadd]
  simp

/-- Witness for `retrieve_degrades_to_empty` at a concrete query, metadata
list and (all-invalid) search output. -/
theorem retrieve_degrades_to_empty_witness :
    semanticResults [⟨"d.txt".data, 0, "alpha beta".data⟩]
        [((1 : ℚ) / 2, 5), ((1 : ℚ) / 4, -1)] = [] ∧
    topScore (semanticResults [⟨"d.txt".data, 0, "alpha beta".data⟩]
        [((1 : ℚ) / 2, 5), ((1 : ℚ) / 4, -1)]) = 0 ∧
    retrieve "zz".data [⟨"d.txt".data, 0, "alpha beta".data⟩]
        [((1 : ℚ) / 2, 5), ((1 : ℚ) / 4, -1)] 6 10 (18 / 100) =
      (List.insertionSort (fun a b => b.score ≤ a.score)
          (lexAdditions "zz".data [⟨"d.txt".data, 0, "alpha beta".data⟩] [] 10)).take
        (max 6 (List.insertionSort (fun a b => b.score ≤ a.score)
          (lexAdditions "zz".data [⟨"d.txt".data, 0, "alpha beta".data⟩] [] 10)).length) ∧
    retrieve "zz".data [⟨"d.txt".data, 0, "alpha beta".data⟩]
        [((1 : ℚ) / 2, 5), ((1 : ℚ) / 4, -1)] 6 10 (18 / 100) = [] :=
  retrieve_degrades_to_empty "zz".data [⟨"d.txt".data, 0, "alpha beta".data⟩]
    [((1 : ℚ) / 2, 5), ((1 : ℚ) / 4, -1)] 6 10 (by decide) (by decide)

/-- Totality of the descending-score relation used to model Python's
stable sort of results. -/
instance instResultRelTotal : IsTotal RetrievalResult (fun a b => b.score ≤ a.score) :=
  ⟨fun a b => le_total b.score a.score⟩

/-- Transitivity of the descending-score relation. -/
instance instResultRelTrans : IsTrans RetrievalResult (fun a b => b.score ≤ a.score) :=
  ⟨fun _ _ _ h1 h2 => le_trans h2 h1⟩

/-- Totality of the descending-keyword-score relation on lexical
candidates. -/
instance instLexRelTotal : IsTotal (Nat × MetaRec) (fun a b => b.1 ≤ a.1) :=
  ⟨fun a b => Nat.le_total b.1 a.1⟩

/-- Transitivity of the descending-keyword-score relation. -/
instance instLexRelTrans : IsTrans (Nat × MetaRec) (fun a b => b.1 ≤ a.1) :=
  ⟨fun _ _ _ h1 h2 => le_trans h2 h1⟩

/-- Inserting into the stable sort preserves, for every fixed score value,
the sublist of results carrying exactly that score. -/
theorem orderedInsert_filter_score (x : RetrievalResult) (s : List RetrievalResult)
    (v : ℚ) :
    (List.orderedInsert (fun a b => b.score ≤ a.score) x s).filter
        (fun r => decide (r.score = v)) =
      if x.score = v then x :: s.filter (fun r => decide (r.score = v))
      else s.filter (fun r => decide (r.score = v)) := by
  induction s with
  | nil => by_cases h : x.score = v <;> simp [List.orderedInsert, h]
  | cons y ys ih =>
    show (if y.score ≤ x.score then x :: y :: ys
        else y :: List.orderedInsert _ x ys).filter (fun r => decide (r.score = v)) = _
    by_cases hr : y.score ≤ x.score
    · rw [if_pos hr]
      by_cases h : x.score = v <;> simp [List.filter_cons, h]
    · rw [if_neg hr]
      have hlt : x.score < y.score := lt_of_not_le hr
      rw [List.filter_cons]
      by_cases hy : y.score = v
      · have hx : ¬(x.score = v) := fun hh => absurd (hh.trans hy.symm ▸ hlt) (lt_irrefl _)
        simp [hy, hx, ih, List.filter_cons]
      · by_cases hx : x.score = v <;> simp [hy, hx, ih, List.filter_cons]

/-- Python's stable sort preserves, for every fixed score value, the
original relative order of the results carrying that score (ties broken by
discovery order), and never mutates a score. -/
theorem insertionSort_filter_score (l : List RetrievalResult) (v : ℚ) :
    (List.insertionSort (fun a b => b.score ≤ a.score) l).filter
        (fun r => decide (r.score = v)) =
      l.filter (fun r => decide (r.score = v)) := by
  induction l with
  | nil => rfl
  | cons x l ih =>
    rw [List.insertionSort, orderedInsert_filter_score]
    by_cases h : x.score = v <;> simp [h, ih, List.filter_cons]

/-- `_keyword_score` computes the number of distinct shared lowercase word
tokens: the intersection cardinality equals the count of distinct query
tokens that also occur among the text's tokens. -/
theorem keywordScore_eq_sharedTokenCount (q t : Str) :
    keywordScore q t =
      ((wordTokensLower q).dedup.filter
        (fun w => decide (w ∈ wordTokensLower t))).length := by
  unfold keywordScore
  have h1 : (wordTokensLower q).toFinset ∩ (wordTokensLower t).toFinset =
      ((wordTokensLower q).filter (fun w => decide (w ∈ wordTokensLower t))).toFinset := by
    ext w
    simp [List.mem_filter, Finset.mem_inter]
  rw [h1, List.card_toFinset]
  have hperm : ((wordTokensLower q).filter
      (fun w => decide (w ∈ wordTokensLower t))).dedup.Perm
        ((wordTokensLower q).dedup.filter (fun w => decide (w ∈ wordTokensLower t))) := by
    rw [List.perm_ext_iff_of_nodup (List.nodup_dedup _) ((List.nodup_dedup _).filter _)]
    intro w
    simp [List.mem_filter]
  exact hperm.length_eq

/-- The semantic results inherit the descending order of the search
scores. -/
theorem semanticResults_sorted (md : List MetaRec) (so : List (ℚ × Int))
    (hs : List.Pairwise (fun p q : ℚ × Int => q.1 ≤ p.1) so) :
    List.Pairwise (fun a b => b.score ≤ a.score) (semanticResults md so) := by
  rw [semanticResults, List.pairwise_filterMap]
  refine hs.imp_of_mem ?_
  intro p p' hp hp' hle r hr r' hr'
  by_cases hv : p.2 < 0 ∨ (md.length : Int) ≤ p.2
  · rw [if_pos hv] at hr
    simp at hr
  · rw [if_neg hv, Option.mem_def, Option.map_eq_some'] at hr
    obtain ⟨m, -, hm⟩ := hr
    by_cases hv' : p'.2 < 0 ∨ (md.length : Int) ≤ p'.2
    · rw [if_pos hv'] at hr'
      simp at hr'
    · rw [if_neg hv', Option.mem_def, Option.map_eq_some'] at hr'
      obtain ⟨m', -, hm'⟩ := hr'
      rw [← hm, ← hm']
      exact hle

/-- For a non-empty descending list the maximum is the head. -/
theorem maxScore_le_of_forall (l : List RetrievalResult) (b : ℚ)
    (hne : l ≠ []) (h : ∀ r ∈ l, r.score ≤ b) : maxScore l ≤ b := by
  induction l with
  | nil => exact absurd rfl hne
  | cons r l ih =>
    cases l with
    | nil => exact h r (List.mem_singleton_self r)
    | cons r2 l2 =>
      rw [maxScore]
      exact max_le (h r (List.mem_cons_self _ _))
        (ih (List.cons_ne_nil _ _) fun x hx => h x (List.mem_cons_of_mem _ hx))

/-- On a list sorted by descending score, the first score (the code's
`results[0]["score"]`, with default `0`) is exactly the maximal score. -/
theorem topScore_eq_maxScore (l : List RetrievalResult)
    (hs : List.Pairwise (fun a b => b.score ≤ a.score) l) :
    topScore l = maxScore l := by
  cases l with
  | nil => rfl
  | cons r rs =>
    cases rs with
    | nil => rfl
    | cons r2 rs2 =>
      rw [topScore, maxScore]
      rw [List.pairwise_cons] at hs
      have : maxScore (r2 :: rs2) ≤ r.score :=
        maxScore_le_of_forall _ _ (List.cons_ne_nil _ _) hs.1
      exact (max_eq_left this).symm

/-- At most `lexical_k` lexical matches are ever added. -/
theorem lexAdditions_length_le (q : Str) (md : List MetaRec)
    (keys : List (Str × Nat)) (lexk : Nat) :
    (lexAdditions q md keys lexk).length ≤ lexk := by
  rw [lexAdditions, List.length_map]
  exact le_trans (List.length_filter_le _ _) (List.length_take_le _ _)

/-- The lexical additions are ranked by descending keyword score (hence
descending pseudo-score). -/
theorem lexAdditions_sorted (q : Str) (md : List MetaRec)
    (keys : List (Str × Nat)) (lexk : Nat) :
    List.Pairwise (fun a b => b.score ≤ a.score) (lexAdditions q md keys lexk) := by
  rw [lexAdditions, List.pairwise_map]
  have h1 : List.Pairwise (fun a b : Nat × MetaRec => b.1 ≤ a.1) (lexRanked q md) :=
    List.sorted_insertionSort _ _
  have ht : List.Sublist ((lexRanked q md).take lexk) (lexRanked q md) :=
    List.take_sublist _ _
  have hf : List.Sublist
      (((lexRanked q md).take lexk).filter fun sm =>
        !(keys.contains (sm.2.doc_id, sm.2.chunk_id)))
      ((lexRanked q md).take lexk) :=
    List.filter_sublist _
  have h3 := List.Pairwise.sublist (hf.trans ht) h1
  refine h3.imp ?_
  intro a b hab
  exact (div_le_div_iff_of_pos_right (by norm_num : (0 : ℚ) < 100)).2 (Nat.cast_le.2 hab)

/-- C6 (status: confirmed).  With the vector search returning its hits in
descending score order (the `faiss` contract), `retrieve` triggers the
lexical fallback exactly when the best semantic score is below
`sim_threshold`; the merged list appends to the semantic results up to
`lexical_k` lexical matches not already present (deduplicated by
`(doc_id, chunk_id)`), each scored `keyword_score / 100` where the keyword
score is the number of distinct shared lowercase word tokens; the final
list is the stable descending-by-score sort of the discovered results —
ties keep discovery order, no score is mutated after a result is added. -/
theorem retrieve_hybrid_merge (q : Str) (md : List MetaRec)
    (so : List (ℚ × Int)) (k lexk : Nat) (θ : ℚ)
    (hs : List.Pairwise (fun p p' : ℚ × Int => p'.1 ≤ p.1) so) :
    retrieve q md so k lexk θ =
      List.insertionSort (fun a b => b.score ≤ a.score)
        (if maxScore (semanticResults md so) < θ then
          semanticResults md so ++
            lexAdditions q md ((semanticResults md so).map resKey) lexk
        else semanticResults md so) ∧
    List.Pairwise (fun a b => b.score ≤ a.score) (retrieve q md so k lexk θ) ∧
    (retrieve q md so k lexk θ).Perm
      (if maxScore (semanticResults md so) < θ then
        semanticResults md so ++
          lexAdditions q md ((semanticResults md so).map resKey) lexk
      else semanticResults md so) ∧
    (∀ v : ℚ, (retrieve q md so k lexk θ).filter (fun r => decide (r.score = v)) =
      (if maxScore (semanticResults md so) < θ then
        semanticResults md so ++
          lexAdditions q md ((semanticResults md so).map resKey) lexk
      else semanticResults md so).filter (fun r => decide (r.score = v))) ∧
    (∀ r ∈ lexAdditions q md ((semanticResults md so).map resKey) lexk,
      ∃ m ∈ md, r.doc_id = m.doc_id ∧ r.chunk_id = m.chunk_id ∧ r.text = m.text ∧
        0 < keywordScore q m.text ∧ r.score = (keywordScore q m.text : ℚ) / 100 ∧
        (m.doc_id, m.chunk_id) ∉ (semanticResults md so).map resKey) ∧
    (lexAdditions q md ((semanticResults md so).map resKey) lexk).length ≤ lexk ∧
    List.Pairwise (fun a b => b.score ≤ a.score)
      (lexAdditions q md ((semanticResults md so).map resKey) lexk) ∧
    (∀ t : Str, keywordScore q t =
      ((wordTokensLower q).dedup.filter
        (fun w => decide (w ∈ wordTokensLower t))).length) := by
  have hsorted := semanticResults_sorted md so hs
  have hts := topScore_eq_maxScore _ hsorted
  have hmain : retrieve q md so k lexk θ =
      List.insertionSort (fun a b => b.score ≤ a.score)
        (if maxScore (semanticResults md so) < θ then
          semanticResults md so ++
            lexAdditions q md ((semanticResults md so).map resKey) lexk
        else semanticResults md so) := by
    simp only [retrieve]
    rw [hts]
    exact List.take_of_length_le (le_max_right _ _)
  refine ⟨hmain, ?_, ?_, ?_, ?_, lexAdditions_length_le q md _ lexk,
    lexAdditions_sorted q md _ lexk, fun t => keywordScore_eq_sharedTokenCount q t⟩
  · rw [hmain]
    exact List.sorted_insertionSort _ _
  · rw [hmain]
    exact List.perm_insertionSort _ _
  · intro v
    rw [hmain]
    exact insertionSort_filter_score _ v
  · intro r hr
    obtain ⟨m, hm, h1, h2, h3, h4, h5, h6⟩ := lexAdditions_mem q md _ lexk r hr
    refine ⟨m, hm, h1, h2, h3, h4, h5, ?_⟩
    intro hmem
    have hc : ((semanticResults md so).map resKey).contains (m.doc_id, m.chunk_id) = true := by
      simpa using hmem
    rw [hc] at h6
    simp at h6

/-- Witness for `retrieve_hybrid_merge` at a concrete query, metadata list
and (descending) search output. -/
theorem retrieve_hybrid_merge_witness :
    retrieve ("expense".data) ([⟨"a.txt".data, 0, "expense report rules".data⟩] : List MetaRec) [((1 : ℚ) / 10, (0 : Int))] 6 10 (18 / 100) =
      List.insertionSort (fun a b => b.score ≤ a.score)
        (if maxScore (semanticResults ([⟨"a.txt".data, 0, "expense report rules".data⟩] : List MetaRec) [((1 : ℚ) / 10, (0 : Int))]) < (18 / 100 : ℚ) then
          semanticResults ([⟨"a.txt".data, 0, "expense report rules".data⟩] : List MetaRec) [((1 : ℚ) / 10, (0 : Int))] ++
            lexAdditions ("expense".data) ([⟨"a.txt".data, 0, "expense report rules".data⟩] : List MetaRec) ((semanticResults ([⟨"a.txt".data, 0, "expense report rules".data⟩] : List MetaRec) [((1 : ℚ) / 10, (0 : Int))]).map resKey) 10
        else semanticResults ([⟨"a.txt".data, 0, "expense report rules".data⟩] : List MetaRec) [((1 : ℚ) / 10, (0 : Int))]) ∧
    List.Pairwise (fun a b => b.score ≤ a.score) (retrieve ("expense".data) ([⟨"a.txt".data, 0, "expense report rules".data⟩] : List MetaRec) [((1 : ℚ) / 10, (0 : Int))] 6 10 (18 / 100)) ∧
    (retrieve ("expense".data) ([⟨"a.txt".data, 0, "expense report rules".data⟩] : List MetaRec) [((1 : ℚ) / 10, (0 : Int))] 6 10 (18 / 100)).Perm
      (if maxScore (semanticResults ([⟨"a.txt".data, 0, "expense report rules".data⟩] : List MetaRec) [((1 : ℚ) / 10, (0 : Int))]) < (18 / 100 : ℚ) then
        semanticResults ([⟨"a.txt".data, 0, "expense report rules".data⟩] : List MetaRec) [((1 : ℚ) / 10, (0 : Int))] ++
          lexAdditions ("expense".data) ([⟨"a.txt".data, 0, "expense report rules".data⟩] : List MetaRec) ((semanticResults ([⟨"a.txt".data, 0, "expense report rules".data⟩] : List MetaRec) [((1 : ℚ) / 10, (0 : Int))]).map resKey) 10
      else semanticResults ([⟨"a.txt".data, 0, "expense report rules".data⟩] : List MetaRec) [((1 : ℚ) / 10, (0 : Int))]) ∧
    (∀ v : ℚ, (retrieve ("expense".data) ([⟨"a.txt".data, 0, "expense report rules".data⟩] : List MetaRec) [((1 : ℚ) / 10, (0 : Int))] 6 10 (18 / 100)).filter (fun r => decide (r.score = v)) =
      (if maxScore (semanticResults ([⟨"a.txt".data, 0, "expense report rules".data⟩] : List MetaRec) [((1 : ℚ) / 10, (0 : Int))]) < (18 / 100 : ℚ) then
        semanticResults ([⟨"a.txt".data, 0, "expense report rules".data⟩] : List MetaRec) [((1 : ℚ) / 10, (0 : Int))] ++
          lexAdditions ("expense".data) ([⟨"a.txt".data, 0, "expense report rules".data⟩] : List MetaRec) ((semanticResults ([⟨"a.txt".data, 0, "expense report rules".data⟩] : List MetaRec) [((1 : ℚ) / 10, (0 : Int))]).map resKey) 10
      else semanticResults ([⟨"a.txt".data, 0, "expense report rules".data⟩] : List MetaRec) [((1 : ℚ) / 10, (0 : Int))]).filter (fun r => decide (r.score = v))) ∧
    (∀ r ∈ lexAdditions ("expense".data) ([⟨"a.txt".data, 0, "expense report rules".data⟩] : List MetaRec) ((semanticResults ([⟨"a.txt".data, 0, "expense report rules".data⟩] : List MetaRec) [((1 : ℚ) / 10, (0 : Int))]).map resKey) 10,
      ∃ m ∈ ([⟨"a.txt".data, 0, "expense report rules".data⟩] : List MetaRec), r.doc_id = m.doc_id ∧ r.chunk_id = m.chunk_id ∧ r.text = m.text ∧
        0 < keywordScore ("expense".data) m.text ∧ r.score = (keywordScore ("expense".data) m.text : ℚ) / 100 ∧
        (m.doc_id, m.chunk_id) ∉ (semanticResults ([⟨"a.txt".data, 0, "expense report rules".data⟩] : List MetaRec) [((1 : ℚ) / 10, (0 : Int))]).map resKey) ∧
    (lexAdditions ("expense".data) ([⟨"a.txt".data, 0, "expense report rules".data⟩] : List MetaRec) ((semanticResults ([⟨"a.txt".data, 0, "expense report rules".data⟩] : List MetaRec) [((1 : ℚ) / 10, (0 : Int))]).map resKey) 10).length ≤ 10 ∧
    List.Pairwise (fun a b => b.score ≤ a.score)
      (lexAdditions ("expense".data) ([⟨"a.txt".data, 0, "expense report rules".data⟩] : List MetaRec) ((semanticResults ([⟨"a.txt".data, 0, "expense report rules".data⟩] : List MetaRec) [((1 : ℚ) / 10, (0 : Int))]).map resKey) 10) ∧
    (∀ t : Str, keywordScore ("expense".data) t =
      ((wordTokensLower ("expense".data)).dedup.filter
        (fun w => decide (w ∈ wordTokensLower t))).length) :=
  retrieve_hybrid_merge ("expense".data) ([⟨"a.txt".data, 0, "expense report rules".data⟩] : List MetaRec)
    [((1 : ℚ) / 10, (0 : Int))] 6 10 (18 / 100) (by decide)

/-- The accumulation loop never moves `j` backwards. -/
theorem accumulate_ge (toks : List Nat) (cs : Int) :
    ∀ fuel j acc, j ≤ accumulate toks cs fuel j acc := by
  intro fuel
  induction fuel with
  | zero => intro j acc; exact le_refl j
  | succ fuel ih =>
    intro j acc
    rw [accumulate]
    by_cases h : j < toks.length ∧ acc < cs
    · rw [if_pos h]
      exact le_trans (Nat.le_succ j) (ih (j + 1) _)
    · rw [if_neg h]

/-- The accumulation loop never runs past the sentence count. -/
theorem accumulate_le (toks : List Nat) (cs : Int) :
    ∀ fuel j acc, j ≤ toks.length → accumulate toks cs fuel j acc ≤ toks.length := by
  intro fuel
  induction fuel with
  | zero => intro j acc h; exact h
  | succ fuel ih =>
    intro j acc h
    rw [accumulate]
    by_cases hc : j < toks.length ∧ acc < cs
    · rw [if_pos hc]
      exact ih (j + 1) _ hc.1
    · rw [if_neg hc]
      exact h

/-- With a positive chunk size and at least one remaining sentence the
accumulation loop consumes at least one sentence. -/
theorem accumulate_gt (toks : List Nat) (cs : Int) (hcs : 0 < cs) :
    ∀ fuel j, 0 < fuel → j < toks.length → j < accumulate toks cs fuel j 0 := by
  intro fuel j hf hj
  cases fuel with
  | zero => omega
  | succ fuel =>
    rw [accumulate, if_pos ⟨hj, hcs⟩]
    exact lt_of_lt_of_le (Nat.lt_succ_self j) (accumulate_ge toks cs fuel (j + 1) _)

/-- The successor start index lies strictly after the current start and
never beyond the chunk end: `max(i + 1, j - k)` with `k ≥ 0`, or `j`
itself when there is no overlap. -/
theorem nextStart_bounds (toks : List Nat) (ov : Int) (i j : Nat) (hij : i < j) :
    i < nextStart toks ov i j ∧ nextStart toks ov i j ≤ j := by
  rw [nextStart]
  by_cases ho : ov ≤ 0
  · rw [if_pos ho]
    exact ⟨hij, le_refl j⟩
  · rw [if_neg ho]
    refine ⟨lt_of_lt_of_le (Nat.lt_succ_self i) (le_max_left _ _), ?_⟩
    exact max_le (by omega) (Nat.sub_le j _)

/-- Once the start index has reached the sentence count the loop emits
nothing, whatever the fuel. -/
theorem chunkLoop_of_ge (toks : List Nat) (cs ov : Int) (fuel i : Nat)
    (h : toks.length ≤ i) : chunkLoop toks cs ov fuel i = [] := by
  cases fuel with
  | zero => rfl
  | succ fuel => rw [chunkLoop, if_neg (by omega)]

/-- Main invariant of the chunking loop, for positive chunk size and
sufficient fuel: the ranges are non-empty, start at `i`, are in-bounds and
non-degenerate, the last range ends at the sentence count, consecutive
ranges leave no gap (`s.1 ≤ r.2`) while strictly advancing the start
(`r.1 < s.1`), and at most `N - i` chunks are emitted. -/
theorem chunkLoop_spec (toks : List Nat) (cs ov : Int) (hcs : 0 < cs) :
    ∀ fuel i, i < toks.length → toks.length - i ≤ fuel →
      chunkLoop toks cs ov fuel i ≠ [] ∧
      (chunkLoop toks cs ov fuel i).head?.map Prod.fst = some i ∧
      (∀ r ∈ chunkLoop toks cs ov fuel i, r.1 < r.2 ∧ r.2 ≤ toks.length) ∧
      (chunkLoop toks cs ov fuel i).getLast?.map Prod.snd = some toks.length ∧
      List.Chain' (fun r s => s.1 ≤ r.2 ∧ r.1 < s.1) (chunkLoop toks cs ov fuel i) ∧
      (chunkLoop toks cs ov fuel i).length ≤ toks.length - i := by
  intro fuel
  induction fuel with
  | zero => intro i hi hf; omega
  | succ fuel ih =>
    intro i hi hf
    have hj_gt : i < accumulate toks cs (toks.length - i) i 0 :=
      accumulate_gt toks cs hcs _ i (by omega) hi
    have hj_le : accumulate toks cs (toks.length - i) i 0 ≤ toks.length :=
      accumulate_le toks cs _ i 0 (le_of_lt hi)
    rw [chunkLoop, if_pos hi]
    by_cases hbreak : toks.length ≤ accumulate toks cs (toks.length - i) i 0
    · rw [if_pos hbreak]
      refine ⟨List.cons_ne_nil _ _, rfl, ?_, ?_, ?_, ?_⟩
      · intro r hr
        rw [List.mem_singleton] at hr
        subst hr
        exact ⟨hj_gt, hj_le⟩
      · show some (accumulate toks cs (toks.length - i) i 0) = some toks.length
        congr 1
        omega
      · exact List.chain'_singleton _
      · show 1 ≤ toks.length - i
        omega
    · rw [if_neg hbreak]
      have hjlt : accumulate toks cs (toks.length - i) i 0 < toks.length := by omega
      obtain ⟨hnx1, hnx2⟩ :=
        nextStart_bounds toks ov i (accumulate toks cs (toks.length - i) i 0) hj_gt
      have hnxN : nextStart toks ov i (accumulate toks cs (toks.length - i) i 0) <
          toks.length := lt_of_le_of_lt hnx2 hjlt
      have hfuel2 : toks.length -
          nextStart toks ov i (accumulate toks cs (toks.length - i) i 0) ≤ fuel := by
        omega
      obtain ⟨hne, hhead, hmem, hlast, hchain, hlen⟩ := ih _ hnxN hfuel2
      obtain ⟨t, ts, hts⟩ : ∃ t ts, chunkLoop toks cs ov fuel
          (nextStart toks ov i (accumulate toks cs (toks.length - i) i 0)) = t :: ts := by
        cases hh : chunkLoop toks cs ov fuel
            (nextStart toks ov i (accumulate toks cs (toks.length - i) i 0)) with
        | nil => exact absurd hh hne
        | cons t ts => exact ⟨t, ts, rfl⟩
      rw [hts] at hhead hmem hlast hchain hlen ⊢
      have ht1 : t.1 = nextStart toks ov i (accumulate toks cs (toks.length - i) i 0) := by
        simpa using hhead
      refine ⟨List.cons_ne_nil _ _, rfl, ?_, ?_, ?_, ?_⟩
      · intro r hr
        rw [List.mem_cons] at hr
        rcases hr with hr | hr
        · subst hr
          exact ⟨hj_gt, hj_le⟩
        · exact hmem r hr
      · rw [List.getLast?_cons_cons]
        exact hlast
      · rw [List.chain'_cons]
        exact ⟨⟨by omega, by omega⟩, hchain⟩
      · show (t :: ts).length + 1 ≤ toks.length - i
        have := hlen
        simp only [List.length_cons] at this ⊢
        omega

/-- For a positive chunk size the loop's result does not depend on the
fuel once the fuel covers the remaining sentences: the run terminates
within `N - i` iterations. -/
theorem chunkLoop_fuel_irrelevant (toks : List Nat) (cs ov : Int) (hcs : 0 < cs) :
    ∀ f1 f2 i, toks.length - i ≤ f1 → toks.length - i ≤ f2 →
      chunkLoop toks cs ov f1 i = chunkLoop toks cs ov f2 i := by
  intro f1
  induction f1 with
  | zero =>
    intro f2 i h1 h2
    have hi : toks.length ≤ i := by omega
    rw [chunkLoop_of_ge toks cs ov 0 i hi, chunkLoop_of_ge toks cs ov f2 i hi]
  | succ f1 ih =>
    intro f2 i h1 h2
    by_cases hi : i < toks.length
    · cases f2 with
      | zero => omega
      | succ f2 =>
        rw [chunkLoop, chunkLoop, if_pos hi, if_pos hi]
        by_cases hbreak : toks.length ≤ accumulate toks cs (toks.length - i) i 0
        · rw [if_pos hbreak, if_pos hbreak]
        · rw [if_neg hbreak, if_neg hbreak]
          have hj_gt : i < accumulate toks cs (toks.length - i) i 0 :=
            accumulate_gt toks cs hcs _ i (by omega) hi
          obtain ⟨hnx1, hnx2⟩ :=
            nextStart_bounds toks ov i (accumulate toks cs (toks.length - i) i 0) hj_gt
          rw [ih f2 _ (by omega) (by omega)]
    · rw [chunkLoop_of_ge toks cs ov _ i (by omega),
        chunkLoop_of_ge toks cs ov f2 i (by omega)]

/-- C3 (status: confirmed).  For every input text yielding `N` sentences
and every positive chunk size, the chunking loop terminates within `N`
iterations: running it with fuel `N` (as `chunk_text` does) gives the same
result as any larger fuel, at most `N` chunks are emitted, and the start
index strictly increases from each chunk to the next — the overlap
walk-back (`next_start = max(i + 1, j - k)`) never moves the new start at
or before the previous chunk's start index. -/
theorem chunk_text_forward_progress (text : Str) (cs ov : Int) (hcs : 0 < cs) :
    (∀ fuel, ((splitSentences text).map wordCount).length ≤ fuel →
      chunkLoop ((splitSentences text).map wordCount) cs ov fuel 0 =
        chunkLoop ((splitSentences text).map wordCount) cs ov
          (splitSentences text).length 0) ∧
    (chunkLoop ((splitSentences text).map wordCount) cs ov
      (splitSentences text).length 0).length ≤ (splitSentences text).length ∧
    List.Chain' (fun r s => r.1 < s.1)
      (chunkLoop ((splitSentences text).map wordCount) cs ov
        (splitSentences text).length 0) ∧
    (∀ i j : Nat, i < j →
      i < nextStart ((splitSentences text).map wordCount) ov i j) := by
  have hlen : ((splitSentences text).map wordCount).length =
      (splitSentences text).length := List.length_map _ _
  refine ⟨?_, ?_, ?_, ?_⟩
  · intro fuel hf
    exact chunkLoop_fuel_irrelevant _ cs ov hcs fuel _ 0 (by omega) (by omega)
  · by_cases hN : (splitSentences text).length = 0
    · rw [chunkLoop_of_ge _ cs ov _ 0 (by omega)]
      simp
    · obtain ⟨-, -, -, -, -, h6⟩ :=
        chunkLoop_spec ((splitSentences text).map wordCount) cs ov hcs
          (splitSentences text).length 0 (by omega) (by omega)
      omega
  · by_cases hN : (splitSentences text).length = 0
    · rw [chunkLoop_of_ge _ cs ov _ 0 (by omega)]
      exact List.chain'_nil
    · obtain ⟨-, -, -, -, h5, -⟩ :=
        chunkLoop_spec ((splitSentences text).map wordCount) cs ov hcs
          (splitSentences text).length 0 (by omega) (by omega)
      exact h5.imp fun _ _ h => h.2
  · intro i j hij
    exact (nextStart_bounds _ ov i j hij).1

/-- Witness for `chunk_text_forward_progress` at a concrete text and
chunk parameters. -/
theorem chunk_text_forward_progress_witness :
    (∀ fuel, ((splitSentences "One two. Three four. Five six.".data).map
        wordCount).length ≤ fuel →
      chunkLoop ((splitSentences "One two. Three four. Five six.".data).map
        wordCount) 3 100 fuel 0 =
        chunkLoop ((splitSentences "One two. Three four. Five six.".data).map
          wordCount) 3 100
          (splitSentences "One two. Three four. Five six.".data).length 0) ∧
    (chunkLoop ((splitSentences "One two. Three four. Five six.".data).map
      wordCount) 3 100
      (splitSentences "One two. Three four. Five six.".data).length 0).length ≤
      (splitSentences "One two. Three four. Five six.".data).length ∧
    List.Chain' (fun r s => r.1 < s.1)
      (chunkLoop ((splitSentences "One two. Three four. Five six.".data).map
        wordCount) 3 100
        (splitSentences "One two. Three four. Five six.".data).length 0) ∧
    (∀ i j : Nat, i < j →
      i < nextStart ((splitSentences "One two. Three four. Five six.".data).map
        wordCount) 100 i j) :=
  chunk_text_forward_progress "One two. Three four. Five six.".data 3 100 (by decide)

/-- Concatenating the non-overlapping portions of a gap-free range list
that starts at or before `e` and ends at `N` yields exactly the indices
`[e, N)`. -/
theorem nonOverlapConcat_eq_range :
    ∀ (rs : List (Nat × Nat)) (e N : Nat), e ≤ N →
      (rs = [] → e = N) →
      (∀ r ∈ rs, r.2 ≤ N) →
      (∀ a b t, rs = (a, b) :: t → a ≤ e) →
      List.Chain' (fun r s => s.1 ≤ r.2) rs →
      (rs = [] ∨ rs.getLast?.map Prod.snd = some N) →
      nonOverlapConcat e rs = List.range' e (N - e) := by
  intro rs
  induction rs with
  | nil =>
    intro e N heN hnil _ _ _ _
    rw [hnil rfl]
    simp [nonOverlapConcat]
  | cons r t ih =>
    obtain ⟨a, b⟩ := r
    intro e N heN hnil hmem hhead hchain hlast
    have ha : a ≤ e := hhead a b t rfl
    have hbN : b ≤ N := hmem (a, b) (List.mem_cons_self _ _)
    rw [nonOverlapConcat, max_eq_right ha]
    cases t with
    | nil =>
      have hb : b = N := by
        rcases hlast with h | h
        · exact absurd h (List.cons_ne_nil _ _)
        · simpa using h
      subst hb
      rw [show nonOverlapConcat (max e b) [] = [] from rfl, List.append_nil]
    | cons s t2 =>
      rw [List.chain'_cons] at hchain
      have hs1 : s.1 ≤ b := hchain.1
      have happ : nonOverlapConcat (max e b) (s :: t2) =
          List.range' (max e b) (N - max e b) := by
        refine ih (max e b) N (max_le heN hbN) ?_ ?_ ?_ hchain.2 ?_
        · intro h
          exact absurd h (List.cons_ne_nil _ _)
        · intro r hr
          exact hmem r (List.mem_cons_of_mem _ hr)
        · intro a2 b2 t3 heq
          have hsab : s = (a2, b2) := (List.cons.inj heq).1
          have : a2 ≤ b := by rw [hsab] at hs1; exact hs1
          exact le_trans this (le_max_right e b)
        · rcases hlast with h | h
          · exact absurd h (List.cons_ne_nil _ _)
          · rw [List.getLast?_cons_cons] at h
            exact Or.inr h
      rw [happ]
      by_cases hbe : b ≤ e
      · rw [max_eq_left hbe, show b - e = 0 by omega]
        simp
      · rw [max_eq_right (by omega : e ≤ b)]
        have hr := List.range'_append e (b - e) (N - b) 1
        rw [one_mul, show e + (b - e) = b by omega] at hr
        rw [hr, show N - b + (b - e) = N - e by omega]

/-- The head of a `dropWhile` result always falsifies the predicate. -/
theorem dropWhile_head_false (p : Char → Bool) :
    ∀ (l : Str) (c : Char) (rest : Str), l.dropWhile p = c :: rest → p c = false := by
  intro l
  induction l with
  | nil => intro c rest h; simp [List.dropWhile] at h
  | cons x xs ih =>
    intro c rest h
    by_cases hp : p x
    · rw [List.dropWhile_cons, if_pos hp] at h
      exact ih c rest h
    · rw [List.dropWhile_cons, if_neg hp] at h
      obtain ⟨rfl, -⟩ := List.cons.inj h
      simpa using hp

/-- A non-empty stripped string starts with a non-whitespace character (and
that head is also the head of the left-stripped string). -/
theorem trimChars_head_not_ws (l : Str) (c : Char) (rest : Str)
    (h : trimChars l = c :: rest) : isWs c = false := by
  rw [trimChars] at h
  obtain ⟨t, ht⟩ := List.dropWhile_suffix (l := (l.dropWhile isWs).reverse) isWs
  have hB : (l.dropWhile isWs).reverse.dropWhile isWs = (c :: rest).reverse :=
    List.reverse_eq_iff.mp h
  have hA : l.dropWhile isWs = (c :: rest) ++ t.reverse := by
    have h1 : (t ++ (c :: rest).reverse).reverse = l.dropWhile isWs := by
      rw [← hB, ht, List.reverse_reverse]
    rw [← h1, List.reverse_append, List.reverse_reverse]
  exact dropWhile_head_false isWs l c (rest ++ t.reverse) (by simpa using hA)

/-- Stripping a string that starts with a non-whitespace character cannot
empty it. -/
theorem trimChars_cons_ne_nil (c : Char) (l : Str) (hc : isWs c = false) :
    trimChars (c :: l) ≠ [] := by
  rw [trimChars, List.dropWhile_cons, if_neg (by simp [hc])]
  intro h
  rw [List.reverse_eq_nil_iff, List.dropWhile_eq_nil_iff] at h
  have := h c (by simp)
  rw [hc] at this
  exact Bool.false_ne_true this

/-- Every sentence produced by the segmenter is non-empty and starts with a
non-whitespace character. -/
theorem splitSentences_shape (text : Str) :
    ∀ s ∈ splitSentences text, ∃ c rest, s = c :: rest ∧ isWs c = false := by
  intro s hs
  simp only [splitSentences] at hs
  by_cases ht : text = []
  · rw [if_pos ht] at hs
    simp at hs
  · rw [if_neg ht] at hs
    rw [List.mem_filter] at hs
    obtain ⟨hs1, hs2⟩ := hs
    rw [List.mem_map] at hs1
    obtain ⟨p, -, hp⟩ := hs1
    cases s with
    | nil => simp at hs2
    | cons c rest => exact ⟨c, rest, rfl, trimChars_head_not_ws p c rest hp⟩

/-- Joining a list of strings whose first string starts with `c` yields a
string starting with `c`. -/
theorem intercalate_head (xs : List Str) (c : Char) (x' : Str) :
    ∃ r2, List.intercalate [' '] ((c :: x') :: xs) = c :: r2 := by
  cases xs with
  | nil => exact ⟨x', by simp [List.intercalate]⟩
  | cons y ys =>
    refine ⟨x' ++ [' '] ++ List.intercalate [' '] (y :: ys), ?_⟩
    show List.intercalate [' '] ((c :: x') :: y :: ys) = _
    rw [show List.intercalate [' '] ((c :: x') :: y :: ys) =
        (c :: x') ++ [' '] ++ List.intercalate [' '] (y :: ys) from by
      simp [List.intercalate, List.intersperse_cons_cons]]
    simp

/-- A chunk rendered from an in-bounds, non-degenerate sentence range is
non-empty. -/
theorem renderChunk_ne_nil (sentences : List Str)
    (hshape : ∀ s ∈ sentences, ∃ c rest, s = c :: rest ∧ isWs c = false)
    (r : Nat × Nat) (h1 : r.1 < r.2) (h2 : r.2 ≤ sentences.length) :
    renderChunk sentences r ≠ [] := by
  rw [renderChunk]
  have hr1 : r.1 < sentences.length := lt_of_lt_of_le h1 h2
  have hdrop := List.drop_eq_get_cons hr1
  obtain ⟨m, hm⟩ : ∃ m, r.2 - r.1 = m + 1 := ⟨r.2 - r.1 - 1, by omega⟩
  obtain ⟨c, rest, hget, hcw⟩ := hshape _ (List.get_mem sentences r.1 hr1)
  rw [hdrop, hm, List.take_succ_cons, hget]
  obtain ⟨r2, hr2⟩ := intercalate_head _ c rest
  rw [hr2]
  exact trimChars_cons_ne_nil c r2 hcw

/-- When every rendered chunk is non-empty the emptiness filter of
`chunk_text` keeps everything. -/
theorem filterMap_render_eq_map (sentences : List Str) :
    ∀ (rs : List (Nat × Nat)), (∀ r ∈ rs, renderChunk sentences r ≠ []) →
      (rs.filterMap fun r =>
        if renderChunk sentences r = [] then none else some (renderChunk sentences r)) =
        rs.map (renderChunk sentences) := by
  intro rs
  induction rs with
  | nil => intro _; rfl
  | cons r rs ih =>
    intro h
    rw [List.filterMap_cons, if_neg (h r (List.mem_cons_self _ _))]
    show renderChunk sentences r :: List.filterMap (fun r =>
        if renderChunk sentences r = [] then none else some (renderChunk sentences r)) rs =
      renderChunk sentences r :: rs.map (renderChunk sentences)
    rw [ih fun r hr => h r (List.mem_cons_of_mem _ hr)]

/-- C7 (status: confirmed).  For every input text and positive chunk size,
the chunker's emptiness guard never drops a chunk (no emitted chunk is
empty, so the chunk list is exactly the rendering of the range list), each
range is non-degenerate and in bounds, and concatenating the chunks'
non-overlapping portions — the sentence indices each chunk covers beyond
its predecessors — reconstructs the original sentence index sequence
`0, …, N-1` exactly: no sentence omitted, none duplicated outside the
designated overlap regions. -/
theorem chunk_text_coverage (text : Str) (cs ov : Int) (hcs : 0 < cs) :
    chunkCore (splitSentences text) cs ov =
      (chunkLoop ((splitSentences text).map wordCount) cs ov
        (splitSentences text).length 0).map (renderChunk (splitSentences text)) ∧
    (∀ c ∈ chunkCore (splitSentences text) cs ov, c ≠ []) ∧
    (∀ r ∈ chunkLoop ((splitSentences text).map wordCount) cs ov
        (splitSentences text).length 0,
      r.1 < r.2 ∧ r.2 ≤ (splitSentences text).length) ∧
    nonOverlapConcat 0 (chunkLoop ((splitSentences text).map wordCount) cs ov
      (splitSentences text).length 0) = List.range (splitSentences text).length := by
  have hlen : ((splitSentences text).map wordCount).length =
      (splitSentences text).length := List.length_map _ _
  by_cases hN : (splitSentences text).length = 0
  · have hz : chunkLoop ((splitSentences text).map wordCount) cs ov
        (splitSentences text).length 0 = [] :=
      chunkLoop_of_ge _ cs ov _ 0 (by omega)
    refine ⟨?_, ?_, ?_, ?_⟩
    · simp only [chunkCore, hz]
      rfl
    · intro c hc
      simp only [chunkCore, hz] at hc
      simp at hc
    · intro r hr
      rw [hz] at hr
      simp at hr
    · rw [hz, hN]
      rfl
  · obtain ⟨hne, hhead, hmem, hlast, hchain, -⟩ :=
      chunkLoop_spec ((splitSentences text).map wordCount) cs ov hcs
        (splitSentences text).length 0 (by omega) (by omega)
    have hmem2 : ∀ r ∈ chunkLoop ((splitSentences text).map wordCount) cs ov
        (splitSentences text).length 0,
        r.1 < r.2 ∧ r.2 ≤ (splitSentences text).length := by
      intro r hr
      obtain ⟨h1, h2⟩ := hmem r hr
      exact ⟨h1, by omega⟩
    have hrender : ∀ r ∈ chunkLoop ((splitSentences text).map wordCount) cs ov
        (splitSentences text).length 0, renderChunk (splitSentences text) r ≠ [] := by
      intro r hr
      obtain ⟨h1, h2⟩ := hmem2 r hr
      exact renderChunk_ne_nil _ (splitSentences_shape text) r h1 h2
    refine ⟨?_, ?_, hmem2, ?_⟩
    · simp only [chunkCore]
      exact filterMap_render_eq_map _ _ hrender
    · intro c hc
      simp only [chunkCore] at hc
      rw [filterMap_render_eq_map _ _ hrender] at hc
      rw [List.mem_map] at hc
      obtain ⟨r, hr, hrc⟩ := hc
      rw [← hrc]
      exact hrender r hr
    · rw [nonOverlapConcat_eq_range _ 0 (splitSentences text).length (by omega)
        (fun h => absurd h hne) (fun r hr => (hmem2 r hr).2) ?_
        (hchain.imp fun _ _ h => h.1) ?_]
      · rw [Nat.sub_zero, List.range_eq_range']
      · intro a b t heq
        rw [heq] at hhead
        simp at hhead
        omega
      · refine Or.inr ?_
        rw [hlast]
        congr 1

/-- Witness for `chunk_text_coverage` at a concrete text and chunk
parameters. -/
theorem chunk_text_coverage_witness :
    chunkCore (splitSentences ("One two. Three four. Five six.".data)) 3 2 =
      (chunkLoop ((splitSentences ("One two. Three four. Five six.".data)).map wordCount) 3 2
        (splitSentences ("One two. Three four. Five six.".data)).length 0).map (renderChunk (splitSentences ("One two. Three four. Five six.".data))) ∧
    (∀ c ∈ chunkCore (splitSentences ("One two. Three four. Five six.".data)) 3 2, c ≠ []) ∧
    (∀ r ∈ chunkLoop ((splitSentences ("One two. Three four. Five six.".data)).map wordCount) 3 2
        (splitSentences ("One two. Three four. Five six.".data)).length 0,
      r.1 < r.2 ∧ r.2 ≤ (splitSentences ("One two. Three four. Five six.".data)).length) ∧
    nonOverlapConcat 0 (chunkLoop ((splitSentences ("One two. Three four. Five six.".data)).map wordCount) 3 2
      (splitSentences ("One two. Three four. Five six.".data)).length 0) = List.range (splitSentences ("One two. Three four. Five six.".data)).length :=
  chunk_text_coverage ("One two. Three four. Five six.".data) 3 2 (by decide)

/-- The splitter on exhausted input emits the pending segment. -/
theorem gsplit_nil (P : Char → Option Char → Bool) (acc : Str) :
    gsplit P acc [] = [acc.reverse] := by
  cases acc <;> rfl

/-- Joining two or more segments with the separator, one step. -/
theorem intercalate_cons_two (sep x y : Str) (l : List Str) :
    List.intercalate sep (x :: y :: l) = x ++ sep ++ List.intercalate sep (y :: l) := by
  simp [List.intercalate, List.intersperse_cons_cons]

/-- The splitter always returns at least one segment, whose text extends
the pending segment; with no pending segment the first segment starts with
the first remaining character. -/
theorem gsplit_head (P : Char → Option Char → Bool) :
    ∀ (rest acc : Str), ∃ s rs, gsplit P acc rest = (acc.reverse ++ s) :: rs ∧
      (acc = [] → s.head? = rest.head?) := by
  intro rest
  induction rest with
  | nil =>
    intro acc
    exact ⟨[], [], by simp [gsplit], fun _ => rfl⟩
  | cons c rest ih =>
    intro acc
    cases acc with
    | nil =>
      obtain ⟨s, rs, hG, -⟩ := ih [c]
      refine ⟨c :: s, rs, ?_, fun _ => rfl⟩
      rw [show gsplit P [] (c :: rest) = gsplit P [c] rest from rfl, hG]
      simp
    | cons p as =>
      by_cases hb : (c = ' ' && P p rest.head?) = true
      · refine ⟨[], gsplit P [] rest, ?_, ?_⟩
        · rw [show gsplit P (p :: as) (c :: rest) =
            (if c = ' ' && P p rest.head? then (p :: as).reverse :: gsplit P [] rest
             else gsplit P (c :: p :: as) rest) from rfl, if_pos hb]
          simp
        · intro h
          exact absurd h (List.cons_ne_nil _ _)
      · obtain ⟨s, rs, hG, -⟩ := ih (c :: p :: as)
        refine ⟨c :: s, rs, ?_, ?_⟩
        · rw [show gsplit P (p :: as) (c :: rest) =
            (if c = ' ' && P p rest.head? then (p :: as).reverse :: gsplit P [] rest
             else gsplit P (c :: p :: as) rest) from rfl, if_neg hb, hG]
          simp
        · intro h
          exact absurd h (List.cons_ne_nil _ _)

/-- The splitter's output is never the empty list of segments. -/
theorem gsplit_ne_nil (P : Char → Option Char → Bool) (rest acc : Str) :
    gsplit P acc rest ≠ [] := by
  obtain ⟨s, rs, hG, -⟩ := gsplit_head P rest acc
  rw [hG]
  exact List.cons_ne_nil _ _

/-- Joining the split segments with single spaces reconstructs the text:
the splitter consumes exactly one space per boundary and drops or reorders
nothing. -/
theorem gsplit_join (P : Char → Option Char → Bool) :
    ∀ (rest acc : Str),
      List.intercalate [' '] (gsplit P acc rest) = acc.reverse ++ rest := by
  intro rest
  induction rest with
  | nil =>
    intro acc
    simp [gsplit, List.intercalate]
  | cons c rest ih =>
    intro acc
    cases acc with
    | nil =>
      rw [show gsplit P [] (c :: rest) = gsplit P [c] rest from rfl, ih [c]]
      simp
    | cons p as =>
      by_cases hb : (c = ' ' && P p rest.head?) = true
      · have hc : c = ' ' := by
          rcases Bool.and_eq_true_iff.1 hb with ⟨h1, -⟩
          exact of_decide_eq_true h1
        obtain ⟨s, rs, hG, -⟩ := gsplit_head P rest []
        rw [show gsplit P (p :: as) (c :: rest) =
            (if c = ' ' && P p rest.head? then (p :: as).reverse :: gsplit P [] rest
             else gsplit P (c :: p :: as) rest) from rfl, if_pos hb]
        rw [show gsplit P [] rest = s :: rs from by simpa using hG]
        rw [intercalate_cons_two]
        rw [show List.intercalate [' '] (s :: rs) = rest from by
          have := ih []
          rw [show gsplit P [] rest = s :: rs from by simpa using hG] at this
          simpa using this]
        rw [hc]
        simp
      · rw [show gsplit P (p :: as) (c :: rest) =
            (if c = ' ' && P p rest.head? then (p :: as).reverse :: gsplit P [] rest
             else gsplit P (c :: p :: as) rest) from rfl, if_neg hb, ih (c :: p :: as)]
        simp

/-- At every seam between adjacent segments the boundary condition held:
the left segment ends in a character `a` and `P a` accepted the right
segment's first character — the splitter splits *only* at boundaries. -/
theorem gsplit_seams (P : Char → Option Char → Bool) :
    ∀ (rest acc : Str),
      List.Chain' (fun s t => ∃ a, s.getLast? = some a ∧ P a t.head? = true)
        (gsplit P acc rest) := by
  intro rest
  induction rest with
  | nil =>
    intro acc
    rw [gsplit_nil]
    exact List.chain'_singleton _
  | cons c rest ih =>
    intro acc
    cases acc with
    | nil => exact ih [c]
    | cons p as =>
      by_cases hb : (c = ' ' && P p rest.head?) = true
      · obtain ⟨s, rs, hG, hh⟩ := gsplit_head P rest []
        have hG2 : gsplit P [] rest = s :: rs := by simpa using hG
        rw [show gsplit P (p :: as) (c :: rest) =
            (if c = ' ' && P p rest.head? then (p :: as).reverse :: gsplit P [] rest
             else gsplit P (c :: p :: as) rest) from rfl, if_pos hb, hG2]
        rw [List.chain'_cons]
        refine ⟨⟨p, ?_, ?_⟩, hG2 ▸ ih []⟩
        · rw [List.getLast?_reverse]
          rfl
        · rw [hh rfl]
          rcases Bool.and_eq_true_iff.1 hb with ⟨-, h2⟩
          exact h2
      · rw [show gsplit P (p :: as) (c :: rest) =
            (if c = ' ' && P p rest.head? then (p :: as).reverse :: gsplit P [] rest
             else gsplit P (c :: p :: as) rest) from rfl, if_neg hb]
        exact ih (c :: p :: as)

/-- No segment contains an unsplit boundary: whenever a segment contains a
character `a` followed by a space followed by `d`, the boundary test
`P a (some d)` failed there — the splitter splits at *every* boundary. -/
theorem gsplit_no_internal (P : Char → Option Char → Bool) :
    ∀ (rest acc : Str),
      (∀ u d a v, acc = u ++ d :: ' ' :: a :: v → P a (some d) = false) →
      (∀ a as2, acc = ' ' :: a :: as2 → P a rest.head? = false) →
      ∀ pt ∈ gsplit P acc rest, ∀ u a d v,
        pt = u ++ a :: ' ' :: d :: v → P a (some d) = false := by
  intro rest
  induction rest with
  | nil =>
    intro acc inv1 _ pt hpt u a d v hdecomp
    rw [gsplit_nil, List.mem_singleton] at hpt
    subst hpt
    refine inv1 v.reverse d a u.reverse ?_
    rw [← List.reverse_reverse acc, hdecomp]
    simp [List.reverse_append]
  | cons c rest ih =>
    intro acc inv1 inv2 pt hpt u a d v hdecomp
    cases acc with
    | nil =>
      refine ih [c] ?_ ?_ pt hpt u a d v hdecomp
      · intro u2 d2 a2 v2 h
        exact absurd (congrArg List.length h)
              (by intro hx
                  simp only [List.length_append, List.length_cons, List.length_nil] at hx
                  omega)
      · intro a2 as2 h
        exact absurd (congrArg List.length h)
              (by intro hx
                  simp only [List.length_append, List.length_cons, List.length_nil] at hx
                  omega)
    | cons p as =>
      by_cases hb : (c = ' ' && P p rest.head?) = true
      · rw [show gsplit P (p :: as) (c :: rest) =
            (if c = ' ' && P p rest.head? then (p :: as).reverse :: gsplit P [] rest
             else gsplit P (c :: p :: as) rest) from rfl, if_pos hb,
          List.mem_cons] at hpt
        rcases hpt with hpt | hpt
        · subst hpt
          refine inv1 v.reverse d a u.reverse ?_
          rw [← List.reverse_reverse (p :: as), hdecomp]
          simp [List.reverse_append]
        · refine ih [] ?_ ?_ pt hpt u a d v hdecomp
          · intro u2 d2 a2 v2 h
            exact absurd (congrArg List.length h)
              (by intro hx
                  simp only [List.length_append, List.length_cons, List.length_nil] at hx
                  omega)
          · intro a2 as2 h
            exact absurd (congrArg List.length h)
              (by intro hx
                  simp only [List.length_append, List.length_cons, List.length_nil] at hx
                  omega)
      · rw [show gsplit P (p :: as) (c :: rest) =
            (if c = ' ' && P p rest.head? then (p :: as).reverse :: gsplit P [] rest
             else gsplit P (c :: p :: as) rest) from rfl, if_neg hb] at hpt
        refine ih (c :: p :: as) ?_ ?_ pt hpt u a d v hdecomp
        · intro u2 d2 a2 v2 h
          cases u2 with
          | nil =>
            obtain ⟨hc, htail⟩ := List.cons.inj h
            have h2 := inv2 a2 v2 htail
            rw [← hc]
            exact h2
          | cons u0 u3 =>
            obtain ⟨-, htail⟩ := List.cons.inj h
            exact inv1 u3 d2 a2 v2 htail
        · intro a2 as2 h
          obtain ⟨hc, htail⟩ := List.cons.inj h
          obtain ⟨hp, -⟩ := List.cons.inj htail
          have hcsp : c = ' ' := hc
          rw [hcsp] at hb
          simp at hb
          rw [← hp]
          exact hb

/-- C9 (status: confirmed).  The sentence segmenter splits the
whitespace-normalized text exactly at the boundaries where a
sentence-terminal punctuation mark (`. ! ?`) is followed by whitespace
followed by an uppercase letter, digit or quote character: joining the
primary segments with single spaces reconstructs the text, every seam
satisfies the boundary condition, and no segment contains an unsplit
boundary.  When the primary rule yields a single unsplit block, the
segmenter falls back to splitting at any terminal punctuation followed by
whitespace regardless of the following character (same three exactness
properties), and every empty or whitespace-only segment is discarded from
the output. -/
theorem sentence_segmenter_exact (text : Str) :
    List.intercalate [' ']
        (gsplit primaryBoundary [] (trimChars (collapseWs text))) =
      trimChars (collapseWs text) ∧
    List.Chain' (fun s t => ∃ a, s.getLast? = some a ∧ primaryBoundary a t.head? = true)
      (gsplit primaryBoundary [] (trimChars (collapseWs text))) ∧
    (∀ pt ∈ gsplit primaryBoundary [] (trimChars (collapseWs text)),
      ∀ u a d v, pt = u ++ a :: ' ' :: d :: v → primaryBoundary a (some d) = false) ∧
    List.intercalate [' ']
        (gsplit fallbackBoundary [] (trimChars (collapseWs text))) =
      trimChars (collapseWs text) ∧
    List.Chain' (fun s _t => ∃ a, s.getLast? = some a ∧ isTermPunct a = true)
      (gsplit fallbackBoundary [] (trimChars (collapseWs text))) ∧
    (∀ pt ∈ gsplit fallbackBoundary [] (trimChars (collapseWs text)),
      ∀ u a d v, pt = u ++ a :: ' ' :: d :: v → isTermPunct a = false) ∧
    (text ≠ [] → splitSentences text =
      ((if (gsplit primaryBoundary [] (trimChars (collapseWs text))).length = 1 then
          gsplit fallbackBoundary [] (trimChars (collapseWs text))
        else gsplit primaryBoundary [] (trimChars (collapseWs text))).map
          trimChars).filter (· ≠ [])) ∧
    (∀ s ∈ splitSentences text, s ≠ []) := by
  refine ⟨?_, ?_, ?_, ?_, ?_, ?_, ?_, ?_⟩
  · simpa using gsplit_join primaryBoundary (trimChars (collapseWs text)) []
  · exact gsplit_seams primaryBoundary (trimChars (collapseWs text)) []
  · exact gsplit_no_internal primaryBoundary (trimChars (collapseWs text)) []
      (fun u d a v h => absurd (congrArg List.length h)
        (by intro hx
            simp only [List.length_append, List.length_cons, List.length_nil] at hx
            omega))
      (fun a as2 h => absurd (congrArg List.length h)
        (by intro hx
            simp only [List.length_cons, List.length_nil] at hx
            omega))
  · simpa using gsplit_join fallbackBoundary (trimChars (collapseWs text)) []
  · exact (gsplit_seams fallbackBoundary (trimChars (collapseWs text)) []).imp
      fun _ _ h => h
  · intro pt hpt u a d v hd
    exact gsplit_no_internal fallbackBoundary (trimChars (collapseWs text)) []
      (fun u2 d2 a2 v2 h => absurd (congrArg List.length h)
        (by intro hx
            simp only [List.length_append, List.length_cons, List.length_nil] at hx
            omega))
      (fun a2 as2 h => absurd (congrArg List.length h)
        (by intro hx
            simp only [List.length_cons, List.length_nil] at hx
            omega))
      pt hpt u a d v hd
  · intro ht
    simp only [splitSentences, if_neg ht]
  · intro s hs
    obtain ⟨c, rest, hc, -⟩ := splitSentences_shape text s hs
    rw [hc]
    exact List.cons_ne_nil c rest

/-- Witness for `sentence_segmenter_exact` at a concrete text containing a
lowercase continuation (no primary split there) and a true boundary. -/
theorem sentence_segmenter_exact_witness :
    List.intercalate [' ']
        (gsplit primaryBoundary [] (trimChars (collapseWs ("He left. she stayed. Then we won.".data)))) =
      trimChars (collapseWs ("He left. she stayed. Then we won.".data)) ∧
    List.Chain' (fun s t => ∃ a, s.getLast? = some a ∧ primaryBoundary a t.head? = true)
      (gsplit primaryBoundary [] (trimChars (collapseWs ("He left. she stayed. Then we won.".data)))) ∧
    (∀ pt ∈ gsplit primaryBoundary [] (trimChars (collapseWs ("He left. she stayed. Then we won.".data))),
      ∀ u a d v, pt = u ++ a :: ' ' :: d :: v → primaryBoundary a (some d) = false) ∧
    List.intercalate [' ']
        (gsplit fallbackBoundary [] (trimChars (collapseWs ("He left. she stayed. Then we won.".data)))) =
      trimChars (collapseWs ("He left. she stayed. Then we won.".data)) ∧
    List.Chain' (fun s _t => ∃ a, s.getLast? = some a ∧ isTermPunct a = true)
      (gsplit fallbackBoundary [] (trimChars (collapseWs ("He left. she stayed. Then we won.".data)))) ∧
    (∀ pt ∈ gsplit fallbackBoundary [] (trimChars (collapseWs ("He left. she stayed. Then we won.".data))),
      ∀ u a d v, pt = u ++ a :: ' ' :: d :: v → isTermPunct a = false) ∧
    (("He left. she stayed. Then we won.".data) ≠ [] → splitSentences ("He left. she stayed. Then we won.".data) =
      ((if (gsplit primaryBoundary [] (trimChars (collapseWs ("He left. she stayed. Then we won.".data)))).length = 1 then
          gsplit fallbackBoundary [] (trimChars (collapseWs ("He left. she stayed. Then we won.".data)))
        else gsplit primaryBoundary [] (trimChars (collapseWs ("He left. she stayed. Then we won.".data)))).map
          trimChars).filter (· ≠ [])) ∧
    (∀ s ∈ splitSentences ("He left. she stayed. Then we won.".data), s ≠ []) :=
  sentence_segmenter_exact ("He left. she stayed. Then we won.".data)

/-- Batched embedding with an order-preserving per-text embedder: with
enough fuel the batches concatenate to the plain map — no chunk is
reordered or dropped by batch boundaries. -/
theorem batchedEmbedAux_map (embed : List Str → List (List ℚ)) (f : Str → List ℚ)
    (hembed : ∀ ts, embed ts = ts.map f) :
    ∀ fuel (texts : List Str), texts.length ≤ fuel →
      batchedEmbedAux embed fuel texts = texts.map f := by
  intro fuel
  induction fuel with
  | zero =>
    intro texts h
    cases texts with
    | nil => rfl
    | cons t ts => simp at h
  | succ fuel ih =>
    intro texts h
    cases texts with
    | nil => rfl
    | cons t ts =>
      rw [show batchedEmbedAux embed (fuel + 1) (t :: ts) =
          embed ((t :: ts).take batchSize) ++
            batchedEmbedAux embed fuel (ts.drop (batchSize - 1)) from rfl]
      rw [hembed, ih (ts.drop (batchSize - 1)) (by
        rw [List.length_drop]
        simp at h
        omega)]
      rw [← List.map_append]
      congr 1
      rw [show batchSize = 19 + 1 from rfl, List.take_succ_cons]
      rw [show (19 + 1 : Nat) - 1 = 19 from rfl]
      rw [show t :: List.take 19 ts ++ List.drop 19 ts =
        t :: (List.take 19 ts ++ List.drop 19 ts) from rfl]
      rw [List.take_append_drop]

/-- Batch boundaries never reorder or drop chunks: the batched embedding
of the whole corpus is the per-chunk embedding, in input order. -/
theorem batchedEmbed_map (embed : List Str → List (List ℚ)) (f : Str → List ℚ)
    (hembed : ∀ ts, embed ts = ts.map f) (texts : List Str) :
    batchedEmbed embed texts = texts.map f :=
  batchedEmbedAux_map embed f hembed texts.length texts (le_refl _)

/-- The corpus accumulation loop, characterised declaratively: metadata is
the in-order concatenation over documents of one record per chunk with
dense 0-based sequential `chunk_id`s, and the chunk list is the in-order
concatenation of each document's chunks. -/
theorem buildCorpus_eq :
    ∀ (docs : List (Str × Str)) (m0 : List MetaRec) (c0 : List Str),
      docs.foldl
        (fun acc d =>
          let chunks := chunk_textRun d.2
          (acc.1 ++ chunks.enum.map fun ic => (⟨d.1, ic.1, ic.2⟩ : MetaRec),
            acc.2 ++ chunks))
        (m0, c0) =
      (m0 ++ docs.flatMap fun d => (chunk_textRun d.2).enum.map fun ic =>
        (⟨d.1, ic.1, ic.2⟩ : MetaRec),
       c0 ++ docs.flatMap fun d => chunk_textRun d.2) := by
  intro docs
  induction docs with
  | nil => intro m0 c0; simp
  | cons d docs ih =>
    intro m0 c0
    rw [List.foldl_cons, ih, List.flatMap_cons, List.flatMap_cons]
    simp [List.append_assoc]

/-- The metadata sequence and the chunk sequence always have the same
length (one record per chunk). -/
theorem buildCorpus_lengths (docs : List (Str × Str)) :
    (buildCorpus docs).1.length = (buildCorpus docs).2.length := by
  rw [buildCorpus, buildCorpus_eq docs [] []]
  simp only [List.nil_append]
  induction docs with
  | nil => rfl
  | cons d docs ih =>
    rw [List.flatMap_cons, List.flatMap_cons, List.length_append, List.length_append,
      List.length_map, List.enum_length, ih]

/-- The texts stored in the metadata records are, position by position,
the chunk texts. -/
theorem buildCorpus_texts (docs : List (Str × Str)) :
    (buildCorpus docs).1.map MetaRec.text = (buildCorpus docs).2 := by
  rw [buildCorpus, buildCorpus_eq docs [] []]
  simp only [List.nil_append]
  induction docs with
  | nil => rfl
  | cons d docs ih =>
    rw [List.flatMap_cons, List.flatMap_cons, List.map_append, ih, List.map_map]
    congr 1
    have : (MetaRec.text ∘ fun ic : Nat × Str => (⟨d.1, ic.1, ic.2⟩ : MetaRec)) =
        Prod.snd := rfl
    rw [this, List.enum_map_snd]

/-- C1 (status: confirmed).  For every successful index build with an
order-preserving embedding client (`embed = map f`, the §4.4 contract),
the vector index and the metadata sequence are positionally aligned: the
index has exactly one row per metadata record, row `i` is the
L2-normalized embedding of the very chunk whose `(doc_id, chunk_id, text)`
record sits at metadata position `i`; the fixed-size batching concatenates
to the plain per-chunk embedding (never reordering or dropping a chunk);
and the metadata is the per-document concatenation of records with dense
0-based sequential `chunk_id`s. -/
theorem index_documents_alignment (docs : List (Str × Str))
    (embed : List Str → List (List ℚ)) (f : Str → List ℚ)
    (hembed : ∀ ts, embed ts = ts.map f)
    (idx : List (List ℝ)) (md : List MetaRec)
    (hok : index_documents docs embed = .ok (idx, md)) :
    idx.length = md.length ∧
    md.length = (buildCorpus docs).2.length ∧
    batchedEmbed embed (buildCorpus docs).2 = ((buildCorpus docs).2).map f ∧
    (∀ i (hi : i < idx.length) (hc : i < (buildCorpus docs).2.length)
        (hm : i < md.length),
      idx.get ⟨i, hi⟩ = normalizeL2 (f ((buildCorpus docs).2.get ⟨i, hc⟩)) ∧
      (md.get ⟨i, hm⟩).text = (buildCorpus docs).2.get ⟨i, hc⟩) ∧
    md = docs.flatMap fun d => (chunk_textRun d.2).enum.map fun ic =>
      (⟨d.1, ic.1, ic.2⟩ : MetaRec) := by
  have hbatch : batchedEmbed embed (buildCorpus docs).2 =
      ((buildCorpus docs).2).map f := batchedEmbed_map embed f hembed _
  simp only [index_documents] at hok
  by_cases hempty : (buildCorpus docs).2.isEmpty
  · rw [if_pos hempty] at hok
    exact absurd hok (by simp)
  · rw [if_neg hempty] at hok
    rw [Except.ok.injEq, Prod.mk.injEq] at hok
    obtain ⟨hidx, hmd⟩ := hok
    have hidx2 : idx = ((buildCorpus docs).2).map fun c => normalizeL2 (f c) := by
      rw [← hidx, hbatch, List.map_map]
      rfl
    have hmd2 : md = (buildCorpus docs).1 := hmd.symm
    refine ⟨?_, ?_, hbatch, ?_, ?_⟩
    · rw [hidx2, hmd2, List.length_map, buildCorpus_lengths]
    · rw [hmd2, buildCorpus_lengths]
    · intro i hi hc hm
      constructor
      · rw [List.get_of_eq hidx2 ⟨i, hi⟩, List.get_map]
      · have htexts := buildCorpus_texts docs
        have h1 : ((buildCorpus docs).1.map MetaRec.text).get
            ⟨i, by rw [htexts]; exact hc⟩ = ((buildCorpus docs).2).get ⟨i, hc⟩ :=
          List.get_of_eq htexts _
        rw [List.get_map] at h1
        rw [List.get_of_eq hmd2 ⟨i, hm⟩]
        exact h1
    · rw [hmd2, buildCorpus, buildCorpus_eq docs [] []]
      simp

/-- Witness for `index_documents_alignment` at a concrete one-document
corpus and a constant (order-preserving) embedding stub. -/
theorem index_documents_alignment_witness :
    ([normalizeL2 [(3 : ℚ), 4]] : List (List ℝ)).length = ([⟨"a.txt".data, 0, "Hello world. Bye now.".data⟩] : List MetaRec).length ∧
    ([⟨"a.txt".data, 0, "Hello world. Bye now.".data⟩] : List MetaRec).length = (buildCorpus [(("a.txt".data : Str), ("Hello world. Bye now.".data : Str))]).2.length ∧
    batchedEmbed (fun ts => ts.map fun _ => [(3 : ℚ), 4]) (buildCorpus [(("a.txt".data : Str), ("Hello world. Bye now.".data : Str))]).2 =
      ((buildCorpus [(("a.txt".data : Str), ("Hello world. Bye now.".data : Str))]).2).map (fun _ : Str => [(3 : ℚ), 4]) ∧
    (∀ i (hi : i < ([normalizeL2 [(3 : ℚ), 4]] : List (List ℝ)).length)
        (hc : i < (buildCorpus [(("a.txt".data : Str), ("Hello world. Bye now.".data : Str))]).2.length)
        (hm : i < ([⟨"a.txt".data, 0, "Hello world. Bye now.".data⟩] : List MetaRec).length),
      ([normalizeL2 [(3 : ℚ), 4]] : List (List ℝ)).get ⟨i, hi⟩ =
        normalizeL2 ((fun _ : Str => [(3 : ℚ), 4]) ((buildCorpus [(("a.txt".data : Str), ("Hello world. Bye now.".data : Str))]).2.get ⟨i, hc⟩)) ∧
      (([⟨"a.txt".data, 0, "Hello world. Bye now.".data⟩] : List MetaRec).get ⟨i, hm⟩).text = (buildCorpus [(("a.txt".data : Str), ("Hello world. Bye now.".data : Str))]).2.get ⟨i, hc⟩) ∧
    ([⟨"a.txt".data, 0, "Hello world. Bye now.".data⟩] : List MetaRec) = [(("a.txt".data : Str), ("Hello world. Bye now.".data : Str))].flatMap fun d => (chunk_textRun d.2).enum.map fun ic =>
      (⟨d.1, ic.1, ic.2⟩ : MetaRec) :=
  index_documents_alignment [(("a.txt".data : Str), ("Hello world. Bye now.".data : Str))]
    (fun ts => ts.map fun _ => [(3 : ℚ), 4]) (fun _ : Str => [(3 : ℚ), 4])
    (fun _ => rfl) [normalizeL2 [(3 : ℚ), 4]]
    ([⟨"a.txt".data, 0, "Hello world. Bye now.".data⟩] : List MetaRec) rfl

/-- Witness for `retrieve_discards_out_of_range` at a concrete metadata
list and a search output containing out-of-range indices. -/
theorem retrieve_discards_out_of_range_witness :
    (semanticResults ([⟨"d.txt".data, 0, "tax law".data⟩] : List MetaRec) [((1 : ℚ) / 2, (0 : Int)), ((1 : ℚ) / 3, (7 : Int)), ((1 : ℚ) / 4, (-2 : Int))]).length =
      ([((1 : ℚ) / 2, (0 : Int)), ((1 : ℚ) / 3, (7 : Int)), ((1 : ℚ) / 4, (-2 : Int))].filter fun p => decide (0 ≤ p.2 ∧ p.2 < (([⟨"d.txt".data, 0, "tax law".data⟩] : List MetaRec).length : Int))).length ∧
    (∀ r ∈ semanticResults ([⟨"d.txt".data, 0, "tax law".data⟩] : List MetaRec) [((1 : ℚ) / 2, (0 : Int)), ((1 : ℚ) / 3, (7 : Int)), ((1 : ℚ) / 4, (-2 : Int))], ∃ m ∈ ([⟨"d.txt".data, 0, "tax law".data⟩] : List MetaRec), ∃ p ∈ [((1 : ℚ) / 2, (0 : Int)), ((1 : ℚ) / 3, (7 : Int)), ((1 : ℚ) / 4, (-2 : Int))],
      0 ≤ p.2 ∧ p.2 < (([⟨"d.txt".data, 0, "tax law".data⟩] : List MetaRec).length : Int) ∧ ([⟨"d.txt".data, 0, "tax law".data⟩] : List MetaRec).get? p.2.toNat = some m ∧
        r = mkResult p.1 m) ∧
    (∀ r ∈ retrieve ("tax".data) ([⟨"d.txt".data, 0, "tax law".data⟩] : List MetaRec) [((1 : ℚ) / 2, (0 : Int)), ((1 : ℚ) / 3, (7 : Int)), ((1 : ℚ) / 4, (-2 : Int))] 6 10 (18 / 100), ∃ m ∈ ([⟨"d.txt".data, 0, "tax law".data⟩] : List MetaRec),
      r.doc_id = m.doc_id ∧ r.chunk_id = m.chunk_id ∧ r.text = m.text) :=
  retrieve_discards_out_of_range ("tax".data) ([⟨"d.txt".data, 0, "tax law".data⟩] : List MetaRec)
    [((1 : ℚ) / 2, (0 : Int)), ((1 : ℚ) / 3, (7 : Int)), ((1 : ℚ) / 4, (-2 : Int))] 6 10 (18 / 100)
